import Mathlib

/-!
Verification of the sanctum-solver maze engine.

This file shallowly embeds the core of the solver (tiles, coordinates,
adjacency with the corner rule, the BFS shortest-path primitive, the two
greedy build strategies and the adjacency pruning pass) as executable Lean
functions, translated from the Rust source, and proves the specification
claims about them.

Modelling conventions:
- machine integers (`usize`) become `Nat`; the source never relies on
  wrap-around in the embedded fragments (the one `len() - 1` subtraction is
  mirrored by `Nat` truncated subtraction and discussed where it matters);
- `HashSet<Coordinate>` becomes `Finset Coordinate`; an overlay
  (`impl Container<Coordinate>`) becomes a membership test
  `Coordinate → Bool`, optional overlays become `Option (Coordinate → Bool)`;
- fallible lookups return `Option`; a source `expect`/index panic is
  modelled by an explicit branch, noted by a comment at each spot;
- the source's `while` loops become fuel-indexed recursions; every theorem
  about a loop quantifies over the fuel, and for the BFS primitive the fuel
  `FUEL grid` is proved sufficient on rectangular grids.
-/

namespace Sanctum

/-- Tile kinds of a map cell, from `src/map/tile.rs`. -/
inductive Tile
  | Block
  | Core
  | Empty
  | Impass
  | Pass
  | Spawn
deriving DecidableEq, Repr

/-- Whether a tile can be moved through (`Tile::is_passable`): exactly
`Empty` and `Pass`. -/
def Tile.is_passable : Tile → Bool
  | .Empty => true
  | .Pass => true
  | _ => false

/-- Whether a tile is a region kind (`Tile::is_region`): exactly `Core` and
`Spawn`. -/
def Tile.is_region : Tile → Bool
  | .Core => true
  | .Spawn => true
  | _ => false

/-- A grid coordinate; field `x` indexes the inner row, `y` the outer list
(`Coordinate(pub usize, pub usize)` with `.0 = x`, `.1 = y`). -/
structure Coordinate where
  x : Nat
  y : Nat
deriving DecidableEq, Repr

/-- A grid is the outer-by-inner list of tiles (`Vec<Vec<Tile>>`). -/
abbrev Grid := List (List Tile)

/-- Tile stored at a coordinate, or `none` when out of bounds
(`Coordinate::get_from`). -/
def Coordinate.get_from (c : Coordinate) (grid : Grid) : Option Tile :=
  match grid.get? c.y with
  | some row => row.get? c.x
  | none => none

/-- Overlay-aware tile read (`Coordinate::get_from_with_build`): a
coordinate contained in the overlay reads as `Block`, otherwise the grid
value. -/
def Coordinate.get_from_with_build (c : Coordinate) (grid : Grid)
    (build : Option (Coordinate → Bool)) : Option Tile :=
  match build with
  | some b => if b c then some Tile.Block else c.get_from grid
  | none => c.get_from grid

/-- Write a tile at a coordinate (`Coordinate::set`). The source uses
`grid.get_mut(y)` — a `None` row is silently skipped — and then indexes the
row with `[x]`, which panics when `x` is out of bounds; the panic is
modelled by `none`. -/
def Coordinate.set (c : Coordinate) (grid : Grid) (value : Tile) : Option Grid :=
  match grid.get? c.y with
  | none => some grid
  | some row =>
    if c.x < row.length then some (grid.set c.y (row.set c.x value))
    else none

/-- Length of row `y`, or `0` when the row does not exist (the source
expression `grid[coord.1].len()` panics there; the bounds hypotheses of the
theorems keep reads inside the grid). -/
def rowLen (grid : Grid) (y : Nat) : Nat :=
  match grid.get? y with
  | some row => row.length
  | none => 0

/-- Every coordinate of the grid in row-major scan order (also the
iteration order of `separate_regions`). -/
def tileset_coords (grid : Grid) : List Coordinate :=
  (List.range grid.length).flatMap (fun y =>
    (List.range (rowLen grid y)).map (fun x => Coordinate.mk x y))

/-- Total number of cells of the grid, as the length of its coordinate
enumeration. -/
def gridCells (grid : Grid) : Nat := (tileset_coords grid).length

/-- The up-to-eight optional neighbors of a coordinate
(`Adjacent<Coordinate>`). -/
structure Adjacent where
  up : Option Coordinate
  right : Option Coordinate
  down : Option Coordinate
  left : Option Coordinate
  up_right : Option Coordinate
  down_right : Option Coordinate
  down_left : Option Coordinate
  up_left : Option Coordinate
deriving DecidableEq, Repr

/-- Bounds-checked neighbors of `coord` (`Adjacent::from_grid_coordinate`);
the four diagonal slots are present only when `diagonals` is set. -/
def Adjacent.from_grid_coordinate (grid : Grid) (coord : Coordinate)
    (diagonals : Bool) : Adjacent :=
  let can_move_up := decide (0 < coord.y)
  let can_move_right := decide (coord.x < rowLen grid coord.y - 1)
  let can_move_down := decide (coord.y < grid.length - 1)
  let can_move_left := decide (0 < coord.x)
  { up := if can_move_up then some ⟨coord.x, coord.y - 1⟩ else none
    right := if can_move_right then some ⟨coord.x + 1, coord.y⟩ else none
    down := if can_move_down then some ⟨coord.x, coord.y + 1⟩ else none
    left := if can_move_left then some ⟨coord.x - 1, coord.y⟩ else none
    up_right :=
      if can_move_up && can_move_right && diagonals then
        some ⟨coord.x + 1, coord.y - 1⟩
      else none
    down_right :=
      if can_move_down && can_move_right && diagonals then
        some ⟨coord.x + 1, coord.y + 1⟩
      else none
    down_left :=
      if can_move_down && can_move_left && diagonals then
        some ⟨coord.x - 1, coord.y + 1⟩
      else none
    up_left :=
      if can_move_up && can_move_left && diagonals then
        some ⟨coord.x - 1, coord.y - 1⟩
      else none }

/-- Whether an optional orthogonal neighbor can be moved onto: present and
passable under the overlay-aware read (the closure `can_move_to` in
`Adjacent::from_grid_coordinate_with_build`). A read outside the grid
panics in the source (`expect`); on the rectangular grids of the theorems
that branch is unreachable, and it is modelled as not movable. -/
def Adjacent.can_move_to (grid : Grid) (build : Option (Coordinate → Bool))
    (direction : Option Coordinate) : Bool :=
  match direction with
  | some d =>
    match d.get_from_with_build grid build with
    | some t => t.is_passable
    | none => false
  | none => false

/-- Overlay-aware neighbors (`Adjacent::from_grid_coordinate_with_build`):
when `diagonals` is set, a diagonal slot is cleared when both of its
flanking orthogonal neighbors cannot be moved onto (the corner rule). -/
def Adjacent.from_grid_coordinate_with_build (grid : Grid)
    (build : Option (Coordinate → Bool)) (coord : Coordinate)
    (diagonals : Bool) : Adjacent :=
  let adjacent := Adjacent.from_grid_coordinate grid coord diagonals
  if diagonals then
    let can_move_up := Adjacent.can_move_to grid build adjacent.up
    let can_move_right := Adjacent.can_move_to grid build adjacent.right
    let can_move_down := Adjacent.can_move_to grid build adjacent.down
    let can_move_left := Adjacent.can_move_to grid build adjacent.left
    { adjacent with
      up_right := if !can_move_up && !can_move_right then none else adjacent.up_right
      down_right := if !can_move_down && !can_move_right then none else adjacent.down_right
      down_left := if !can_move_down && !can_move_left then none else adjacent.down_left
      up_left := if !can_move_up && !can_move_left then none else adjacent.up_left }
  else adjacent

/-- The present neighbors in the fixed `for_each` order of the source:
up, right, down, left, up_right, down_right, down_left, up_left. -/
def Adjacent.toList (a : Adjacent) : List Coordinate :=
  [a.up, a.right, a.down, a.left, a.up_right, a.down_right, a.down_left, a.up_left].filterMap id

/-- A BFS result (`ShortestPath { path, start_distance }`). -/
structure ShortestPath where
  path : List Coordinate
  start_distance : Option Nat
deriving DecidableEq, Repr

/-- Reported length of a path (`ShortestPath::len`):
`path.len() + start_distance.unwrap_or(0)`. -/
def ShortestPath.len (s : ShortestPath) : Nat :=
  s.path.length + s.start_distance.getD 0

/-- Keep the shorter of two paths, preferring the current one on ties
(`ShortestPath::return_shorter`). -/
def ShortestPath.return_shorter (a b : ShortestPath) : ShortestPath :=
  if a.len > b.len then b else a

/-- The comparison of `impl Ord for ShortestPath`: it compares only the
reported lengths. -/
def ShortestPath.cmp (a b : ShortestPath) : Ordering :=
  compare a.len b.len

/-- First recorded path length for a coordinate in the visited map
(`HashMap<Coordinate, usize>`; insertion is modelled by consing, so the
most recent entry wins). -/
def lookupVisited (visited : List (Coordinate × Nat)) (c : Coordinate) : Option Nat :=
  (visited.find? (fun e => decide (e.1 = c))).map (fun e => e.2)

/-- The visited check of the BFS loop: skip the popped entry when a
recorded path length for its coordinate is at most the current one
(`current_path.len() >= visited_path_len`, defaulting to keep). -/
def bfs_skip (visited : List (Coordinate × Nat)) (coord : Coordinate)
    (current_path_length : Nat) : Bool :=
  match lookupVisited visited coord with
  | some visited_path_len => decide (visited_path_len ≤ current_path_length)
  | none => false

/-- The queue entries pushed when a passable non-target cell is expanded:
each overlay-aware neighbor, paired with the current path extended by
it. -/
def bfs_children (grid : Grid) (build : Option (Coordinate → Bool)) (diagonals : Bool)
    (coord : Coordinate) (current_path : List Coordinate) :
    List (Coordinate × List Coordinate) :=
  (Adjacent.from_grid_coordinate_with_build grid build coord diagonals).toList.map
    (fun adjacent_coord => (adjacent_coord, current_path ++ [adjacent_coord]))

/-- The BFS loop of `ShortestPath::from_grid_coordinate_to_tile`. The queue
holds `(coordinate, path-so-far)` pairs, popped from the front; out of fuel
returns `none` (proved unreachable for `FUEL grid` on rectangular grids),
an exhausted queue returns `some none`, finding the target returns the
path. A coordinate outside the grid panics in the source (`expect`); that
branch, unreachable on rectangular grids, is modelled as `some none`. -/
def bfs_loop (grid : Grid) (build : Option (Coordinate → Bool)) (end_point : Tile)
    (diagonals : Bool) :
    Nat → List (Coordinate × List Coordinate) → List (Coordinate × Nat) →
    Option (Option (List Coordinate))
  | 0, _, _ => none
  | _ + 1, [], _ => some none
  | fuel + 1, (coord, current_path) :: rest, visited =>
    if bfs_skip visited coord current_path.length then
      bfs_loop grid build end_point diagonals fuel rest visited
    else
      match coord.get_from_with_build grid build with
      | none => some none
      | some tile =>
        if tile = end_point then some (some current_path)
        else
          bfs_loop grid build end_point diagonals fuel
            (if tile.is_passable then
              rest ++ bfs_children grid build diagonals coord current_path
            else rest)
            ((coord, current_path.length) :: visited)

/-- Fuel that suffices for the BFS loop on a rectangular grid (proved
below): at most one pop per queue entry, and at most `8` entries per
processed cell plus the initial entry. -/
def FUEL (grid : Grid) : Nat := 8 * gridCells grid + 2

/-- BFS from one coordinate to the nearest cell of a tile kind
(`ShortestPath::from_grid_coordinate_to_tile`). A non-passable start yields
`none`; an out-of-bounds start panics in the source (`expect`) and is
modelled as `none`. -/
def ShortestPath.from_grid_coordinate_to_tile (grid : Grid)
    (build : Option (Coordinate → Bool)) (start : Coordinate)
    (start_distance : Option Nat) (end_point : Tile) (diagonals : Bool) :
    Option ShortestPath :=
  match start.get_from_with_build grid build with
  | none => none
  | some start_tile =>
    if start_tile.is_passable then
      match (bfs_loop grid build end_point diagonals (FUEL grid) [(start, [start])] []).join with
      | some p => some { path := p, start_distance := start_distance }
      | none => none
    else none

/-- Best path over several annotated start points
(`ShortestPath::from_any_grid_coordinate_to_tile`): per-start BFS results
reduced by `return_shorter`, which keeps the earlier result on ties. -/
def ShortestPath.from_any_grid_coordinate_to_tile (grid : Grid)
    (build : Option (Coordinate → Bool)) (start_points : List (Coordinate × Nat))
    (end_tile : Tile) (diagonals : Bool) : Option ShortestPath :=
  match start_points.filterMap
      (fun s => ShortestPath.from_grid_coordinate_to_tile grid build s.1 (some s.2) end_tile diagonals) with
  | [] => none
  | first :: others => some (others.foldl ShortestPath.return_shorter first)

/-- Modelled from the spec: the final `Tileset` source file is not in the
snapshot (only this older revision of `tileset.rs` and the final engine
that consumes it are), so the structure follows its use in `build.rs` and
`shortest_path.rs` and spec §4.3: the owned grid, and per spawn region an
ordered map from entrance coordinate to its recorded distance. -/
structure Tileset where
  grid : Grid
  entrances_by_region : List (List (Coordinate × Nat))

/-- Per-region shortest paths from the entrances to any `Core`
(`ShortestPath::from_entrances_to_any_core`), aligned with
`entrances_by_region`. -/
def ShortestPath.from_entrances_to_any_core (tileset : Tileset)
    (build : Option (Coordinate → Bool)) (diagonals : Bool) :
    List (Option ShortestPath) :=
  tileset.entrances_by_region.map (fun entrances =>
    ShortestPath.from_any_grid_coordinate_to_tile tileset.grid build entrances Tile.Core diagonals)

/-- Membership test of a committed block set, the `Container` view of
`Build::blocks`. -/
def buildContains (blocks : Finset Coordinate) : Coordinate → Bool :=
  fun c => decide (c ∈ blocks)

/-- Validity of an overlay (`Build::is_valid`): every spawn region has an
entrance with a path to some `Core`, with diagonals disabled. -/
def Build.is_valid (tileset : Tileset) (blocks : Coordinate → Bool) : Bool :=
  tileset.entrances_by_region.all (fun region =>
    region.any (fun entrance =>
      (ShortestPath.from_grid_coordinate_to_tile tileset.grid (some blocks)
        entrance.1 none Tile.Core false).isSome))

/-- First coordinate, scanning the path from the core end backwards, whose
underlying tile is `Empty` and whose tentative placement keeps the build
valid (`Build::find_valid_block_placement`); the temporary overlay is the
committed blocks plus the candidate (`TempBuild`). An out-of-grid path
coordinate panics in the source (`expect`); it is modelled as a failed
candidate. -/
def Build.find_valid_block_placement (tileset : Tileset)
    (blocks : Finset Coordinate) (shortest_path : List Coordinate) :
    Option Coordinate :=
  shortest_path.reverse.find? (fun coord =>
    decide (coord.get_from tileset.grid = some Tile.Empty) &&
    Build.is_valid tileset (fun c => buildContains blocks c || decide (c = coord)))

/-- Tentatively remove `coord` from the blocks (`Build::try_remove_coord`):
when it was present, it stays removed exactly when the recomputed
per-region shortest paths equal the expected ones; otherwise it is
restored. Returns the resulting blocks and whether a removal stuck. -/
def Build.try_remove_coord (tileset : Tileset) (blocks : Finset Coordinate)
    (expected_shortest_paths : List (Option ShortestPath)) (coord : Coordinate)
    (diagonals : Bool) : Finset Coordinate × Bool :=
  if coord ∈ blocks then
    let removed := blocks.erase coord
    if ShortestPath.from_entrances_to_any_core tileset (some (buildContains removed)) diagonals
        ≠ expected_shortest_paths then
      (blocks, false)
    else (removed, true)
  else (blocks, false)

/-- State of the pruning pass `Build::try_remove_adjacent_to`: the block
set, the lazily computed expected shortest paths, the visited set, and the
queue of `Adjacent` records still to process. -/
structure PruneState where
  blocks : Finset Coordinate
  expected : Option (List (Option ShortestPath))
  visited : Finset Coordinate
  queue : List Adjacent

/-- One `for_each` body of the pruning pass, at one adjacent coordinate.
Note that, as in the source, the coordinate passed to `try_remove_coord` is
`coord` — the block the pass was started from — not `adjacent_coord`. -/
def prune_visit (tileset : Tileset) (coord : Coordinate) (diagonals : Bool)
    (s : PruneState) (adjacent_coord : Coordinate) : PruneState :=
  if adjacent_coord ∈ s.blocks ∧ adjacent_coord ∉ s.visited then
    let visited' := insert adjacent_coord s.visited
    let expected' :=
      match s.expected with
      | some e => e
      | none => ShortestPath.from_entrances_to_any_core tileset
          (some (buildContains s.blocks)) diagonals
    let r := Build.try_remove_coord tileset s.blocks expected' coord diagonals
    { blocks := r.1, expected := some expected', visited := visited',
      queue :=
        if r.2 then
          s.queue ++ [Adjacent.from_grid_coordinate tileset.grid adjacent_coord diagonals]
        else s.queue }
  else s

/-- The outer queue loop of the pruning pass; out of fuel returns the
current blocks. -/
def prune_loop (tileset : Tileset) (coord : Coordinate) (diagonals : Bool) :
    Nat → PruneState → Finset Coordinate
  | 0, s => s.blocks
  | fuel + 1, s =>
    match s.queue with
    | [] => s.blocks
    | adjacent :: rest =>
      prune_loop tileset coord diagonals fuel
        (adjacent.toList.foldl (prune_visit tileset coord diagonals) { s with queue := rest })

/-- The pruning pass around a just-committed block
(`Build::try_remove_adjacent_to`), with explicit fuel for its loop. -/
def Build.try_remove_adjacent_to (tileset : Tileset) (blocks : Finset Coordinate)
    (coord : Coordinate) (diagonals : Bool) (fuel : Nat) : Finset Coordinate :=
  prune_loop tileset coord diagonals fuel
    { blocks := blocks, expected := none, visited := ∅,
      queue := [Adjacent.from_grid_coordinate tileset.grid coord diagonals] }

/-- Outcome of a build strategy run: a returned build, or one of the two
modelled panics (a list index out of bounds, or the
`expect("Expected build to produce shortest paths")` on a missing path). -/
inductive RunResult
  | indexPanic : RunResult
  | pathPanic : RunResult
  | finished : Finset Coordinate → RunResult
deriving DecidableEq

/-- The `while` guard of the round-robin strategy
(`max_blocks.map(|max| max > build.blocks.len()).unwrap_or(true)`). -/
def cap_allows (max_blocks : Option Nat) (card : Nat) : Bool :=
  match max_blocks with
  | some m => decide (card < m)
  | none => true

/-- The break guard of the priority strategy
(`max_blocks.map(|max| build.blocks.len() >= max).unwrap_or(false)`). -/
def cap_reached (max_blocks : Option Nat) (card : Nat) : Bool :=
  match max_blocks with
  | some m => decide (m ≤ card)
  | none => false

/-- The round-robin loop of `Build::from_entrances_to_any_core`: advance
the region index (or stop after a cycle without placements), recompute the
region's shortest path, then commit and prune the first valid placement
along it. Out of fuel returns the blocks placed so far. -/
def rr_loop (tileset : Tileset) (diagonals : Bool) (max_blocks : Option Nat)
    (prune_fuel : Nat) :
    Nat → Finset Coordinate → Nat → Nat → RunResult
  | 0, blocks, _, _ => .finished blocks
  | fuel + 1, blocks, current_entrance, placements =>
    if cap_allows max_blocks blocks.card then
      match (if current_entrance < tileset.entrances_by_region.length - 1 then
              some (current_entrance + 1, placements)
            else if 0 < placements then some (0, 0)
            else none : Option (Nat × Nat)) with
      | none => .finished blocks
      | some (entrance, placements') =>
        match tileset.entrances_by_region.get? entrance with
        | none => .indexPanic
        | some entrances =>
          match ShortestPath.from_any_grid_coordinate_to_tile tileset.grid
              (some (buildContains blocks)) entrances Tile.Core diagonals with
          | none => .pathPanic
          | some shortest_path =>
            match Build.find_valid_block_placement tileset blocks shortest_path.path with
            | some coord =>
              rr_loop tileset diagonals max_blocks prune_fuel fuel
                (Build.try_remove_adjacent_to tileset (insert coord blocks) coord
                  diagonals prune_fuel)
                entrance (placements' + 1)
            | none =>
              rr_loop tileset diagonals max_blocks prune_fuel fuel blocks entrance placements'
    else .finished blocks

/-- Round-robin strategy (`Build::from_entrances_to_any_core`), fuel
indexed; the initial state is an empty build, region index `0` and a
placement count of `1`. -/
def Build.from_entrances_to_any_core (tileset : Tileset) (diagonals : Bool)
    (max_blocks : Option Nat) (fuel prune_fuel : Nat) : RunResult :=
  rr_loop tileset diagonals max_blocks prune_fuel fuel ∅ 0 1

/-- Insertion into the strategy's `BTreeMap<ShortestPath, usize>`. The
derived `Ord` of `ShortestPath` compares only `len`, so a key of equal
`len` replaces the stored value while keeping the old key, as `BTreeMap`
does. -/
def bt_insert (key : ShortestPath) (value : Nat) :
    List (ShortestPath × Nat) → List (ShortestPath × Nat)
  | [] => [(key, value)]
  | (k, v) :: rest =>
    if key.len < k.len then (key, value) :: (k, v) :: rest
    else if key.len = k.len then (k, value) :: rest
    else (k, v) :: bt_insert key value rest

/-- The initial `(shortest path, region index)` pairs of the priority
strategy, in region order; a region with no path hits the
`expect(VALID_BUILD)` panic, modelled by `none`. -/
def collect_region_paths : List (Option ShortestPath) → Nat →
    Option (List (ShortestPath × Nat))
  | [], _ => some []
  | none :: _, _ => none
  | some p :: rest, i =>
    (collect_region_paths rest (i + 1)).map (fun l => (p, i) :: l)

/-- Recompute one region's shortest path under the current blocks (the
`shortest_path!` macro of the priority strategy): `none` models the index
panic, `some none` the missing path (`expect(VALID_BUILD)`). -/
def region_shortest_path (tileset : Tileset) (blocks : Finset Coordinate)
    (diagonals : Bool) (region_index : Nat) : Option (Option ShortestPath) :=
  match tileset.entrances_by_region.get? region_index with
  | none => none
  | some entrances =>
    some (ShortestPath.from_any_grid_coordinate_to_tile tileset.grid
      (some (buildContains blocks)) entrances Tile.Core diagonals)

/-- The loop of `Build::from_entrances_to_any_core_with_priority`: pop the
region with the smallest path; stop at the block cap; recompute when the
popped path is stale (a block sits on it); otherwise place along it, prune,
and re-insert the recomputed path. Out of fuel returns the blocks so
far. -/
def prio_loop (tileset : Tileset) (diagonals : Bool) (max_blocks : Option Nat)
    (prune_fuel : Nat) :
    Nat → Finset Coordinate → List (ShortestPath × Nat) → RunResult
  | 0, blocks, _ => .finished blocks
  | fuel + 1, blocks, queue =>
    match queue with
    | [] => .finished blocks
    | (shortest_path, region_index) :: rest =>
      if cap_reached max_blocks blocks.card then .finished blocks
      else
        if shortest_path.path.any (fun c => buildContains blocks c) then
          match region_shortest_path tileset blocks diagonals region_index with
          | none => .indexPanic
          | some none => .pathPanic
          | some (some sp) =>
            prio_loop tileset diagonals max_blocks prune_fuel fuel blocks
              (bt_insert sp region_index rest)
        else
          match Build.find_valid_block_placement tileset blocks shortest_path.path with
          | some coord =>
            match region_shortest_path tileset
                (Build.try_remove_adjacent_to tileset (insert coord blocks) coord
                  diagonals prune_fuel)
                diagonals region_index with
            | none => .indexPanic
            | some none => .pathPanic
            | some (some sp) =>
              prio_loop tileset diagonals max_blocks prune_fuel fuel
                (Build.try_remove_adjacent_to tileset (insert coord blocks) coord
                  diagonals prune_fuel)
                (bt_insert sp region_index rest)
          | none =>
            prio_loop tileset diagonals max_blocks prune_fuel fuel blocks rest

/-- Priority strategy (`Build::from_entrances_to_any_core_with_priority`):
seed the ordered map with every region's shortest path under no overlay,
then run the loop. -/
def Build.from_entrances_to_any_core_with_priority (tileset : Tileset)
    (diagonals : Bool) (max_blocks : Option Nat) (fuel prune_fuel : Nat) :
    RunResult :=
  match collect_region_paths
      (ShortestPath.from_entrances_to_any_core tileset none diagonals) 0 with
  | none => .pathPanic
  | some entries =>
    prio_loop tileset diagonals max_blocks prune_fuel fuel ∅
      (entries.foldl (fun m e => bt_insert e.1 e.2 m) [])

/-- Errors of the tileset operations (`tileset/error.rs`). -/
inductive TilesetError
  | CannotPass (tile : Tile)
  | NotRegion (tile : Tile)
deriving DecidableEq, Repr

/-- Modelled from the spec: `Adjacent::from_array_coordinate`, the
4-connected bounds-checked adjacency used by the flood fill of
`tileset.rs`, is from a revision missing from the snapshot; spec §4.3 calls
the fill 4-connected, so it is modelled as the orthogonal part of
`Adjacent::from_grid_coordinate`, pushed in the order up, right, down,
left. -/
def Adjacent.from_array_coordinate (grid : Grid) (coord : Coordinate) :
    List Coordinate :=
  (Adjacent.from_grid_coordinate grid coord false).toList

/-- The depth-first flood fill `get_region` inside
`Tileset::separate_regions`: a stack of coordinates (pushes go on top),
visiting exactly the cells of `start_tile`'s kind. A popped coordinate
outside the grid panics in the source (`expect`); that branch, unreachable
on rectangular grids, returns the visited set. -/
def get_region_loop (grid : Grid) (start_tile : Tile) :
    Nat → List Coordinate → Finset Coordinate → Finset Coordinate
  | 0, _, visited => visited
  | _ + 1, [], visited => visited
  | fuel + 1, coord :: stack, visited =>
    if coord ∈ visited then get_region_loop grid start_tile fuel stack visited
    else
      match coord.get_from grid with
      | none => visited
      | some tile =>
        if tile = start_tile then
          get_region_loop grid start_tile fuel
            ((Adjacent.from_array_coordinate grid coord).foldl (fun st c => c :: st) stack)
            (insert coord visited)
        else get_region_loop grid start_tile fuel stack visited

/-- Fuel that suffices for the flood fill: at most one insertion per cell
and four pushes per insertion. -/
def REGION_FUEL (grid : Grid) : Nat := 4 * gridCells grid + 2

/-- Region decomposition (`Tileset::separate_regions`): an error on a
non-region tile kind, otherwise the flood-filled buckets of the matching
cells in scan order, skipping cells already captured by an earlier
bucket. -/
def separate_regions (grid : Grid) (start_tile : Tile) :
    Except TilesetError (List (Finset Coordinate)) :=
  if start_tile.is_region then
    .ok ((tileset_coords grid).foldl
      (fun buckets coord =>
        if coord.get_from grid = some start_tile ∧ ∀ s ∈ buckets, coord ∉ s then
          buckets ++ [get_region_loop grid start_tile (REGION_FUEL grid) [coord] ∅]
        else buckets) [])
  else .error (.NotRegion start_tile)

/-- A cell reading as the given tile kind from the raw grid. -/
def sameTile (grid : Grid) (t : Tile) (c : Coordinate) : Prop :=
  c.get_from grid = some t

/-- One step of the 4-connected same-kind adjacency the flood fill
explores: both endpoints read as the kind and the second is among the
bounds-checked orthogonal neighbors of the first. -/
def regionAdj (grid : Grid) (t : Tile) (a b : Coordinate) : Prop :=
  sameTile grid t a ∧ sameTile grid t b ∧ b ∈ Adjacent.from_array_coordinate grid a

/-- Connectivity through cells of one kind: the reflexive-transitive
closure of `regionAdj`. A maximal 4-connected region is a set of the form
`\x7bc | regionReach grid t s c\x7d`. -/
def regionReach (grid : Grid) (t : Tile) : Coordinate → Coordinate → Prop :=
  Relation.ReflTransGen (regionAdj grid t)

/-- A rectangular grid: every row has the length of row `0` (the data-model
invariant of spec §3, "All rows have identical length"). -/
def Rect (grid : Grid) : Prop :=
  ∀ r ∈ grid, r.length = rowLen grid 0

instance decRect (grid : Grid) : Decidable (Rect grid) :=
  inferInstanceAs (Decidable (∀ r ∈ grid, r.length = rowLen grid 0))

/-- A coordinate inside the grid. -/
def inBounds (grid : Grid) (c : Coordinate) : Prop :=
  c.y < grid.length ∧ c.x < rowLen grid c.y

/-- One BFS move: the target is among the overlay-aware neighbors of the
source (with the corner rule when diagonals are enabled). -/
def stepOk (grid : Grid) (build : Option (Coordinate → Bool)) (diagonals : Bool)
    (a b : Coordinate) : Prop :=
  b ∈ (Adjacent.from_grid_coordinate_with_build grid build a diagonals).toList

/-- A walk the BFS searches over: it starts at `start`, each move is an
overlay-aware adjacency step, every cell before the last (and the start
cell itself) is passable under the overlay, and the last cell reads as the
target tile kind. -/
def TargetWalk (grid : Grid) (build : Option (Coordinate → Bool)) (end_point : Tile)
    (diagonals : Bool) (start : Coordinate) (w : List Coordinate) : Prop :=
  w.head? = some start ∧
  List.Chain' (stepOk grid build diagonals) w ∧
  (∀ c ∈ w.dropLast, Adjacent.can_move_to grid build (some c) = true) ∧
  Adjacent.can_move_to grid build (some start) = true ∧
  (∃ final, w.getLast? = some final ∧ final.get_from_with_build grid build = some end_point)

/-- Concrete 5×4 grid for the pruning-pass demonstration: a short route
`(1,1) → (2,1) → Core (3,1)` and a long detour through row 2, with a
dead-end pocket at `(2,0)` above the short route. -/
def pruneDemoGrid : Grid :=
  [[Tile.Impass, Tile.Impass, Tile.Empty, Tile.Impass, Tile.Impass],
   [Tile.Impass, Tile.Empty, Tile.Empty, Tile.Core, Tile.Impass],
   [Tile.Impass, Tile.Empty, Tile.Empty, Tile.Empty, Tile.Impass],
   [Tile.Impass, Tile.Impass, Tile.Impass, Tile.Impass, Tile.Impass]]

/-- Tileset over `pruneDemoGrid` with the single entrance `(1,1)` at
distance `0`. -/
def pruneDemoTileset : Tileset :=
  { grid := pruneDemoGrid, entrances_by_region := [[(⟨1, 1⟩, 0)]] }

/-- Block set for the pruning-pass demonstration: the committed block
`(2,1)` on the short route and the redundant block `(2,0)` in the dead-end
pocket adjacent to it. -/
def pruneDemoBlocks : Finset Coordinate :=
  {⟨2, 1⟩, ⟨2, 0⟩}

/-- A queue entry of the BFS loop. -/
abbrev QEntry := Coordinate × List Coordinate

/-- Well-formedness of one BFS queue entry: its path starts at `start`,
ends at its coordinate, follows overlay-aware adjacency, and every cell
before the last is passable. -/
structure EntryOk (grid : Grid) (build : Option (Coordinate → Bool)) (diagonals : Bool)
    (start : Coordinate) (e : QEntry) : Prop where
  head_start : e.2.head? = some start
  last_coord : e.2.getLast? = some e.1
  chain : List.Chain' (stepOk grid build diagonals) e.2
  passable : ∀ c ∈ e.2.dropLast, Adjacent.can_move_to grid build (some c) = true

/-- The BFS loop invariant: entries are well-formed walks on in-bounds
coordinates, queue lengths are nondecreasing and spread over at most two
consecutive values, visited records are below every queued length, never
sit on a target cell, and each passable visited cell has every neighbor
either queued or visited within one extra step. -/
structure BfsInv (grid : Grid) (build : Option (Coordinate → Bool)) (end_point : Tile)
    (diagonals : Bool) (start : Coordinate) (Q : List QEntry)
    (V : List (Coordinate × Nat)) : Prop where
  entry_ok : ∀ e ∈ Q, EntryOk grid build diagonals start e
  entry_inBounds : ∀ e ∈ Q, inBounds grid e.1
  sorted : List.Pairwise (fun a b => a.2.length ≤ b.2.length) Q
  spread : ∀ e1 ∈ Q, ∀ e2 ∈ Q, e1.2.length ≤ e2.2.length + 1
  visited_le : ∀ c v, lookupVisited V c = some v → ∀ e ∈ Q, v ≤ e.2.length
  visited_not_target : ∀ c v, lookupVisited V c = some v →
    ∃ t, c.get_from_with_build grid build = some t ∧ t ≠ end_point
  visited_cover : ∀ c v, lookupVisited V c = some v →
    ∀ t, c.get_from_with_build grid build = some t → t.is_passable = true →
    ∀ b ∈ (Adjacent.from_grid_coordinate_with_build grid build c diagonals).toList,
      (∃ p, (b, p) ∈ Q ∧ p.length ≤ v + 1) ∨
      (∃ v', lookupVisited V b = some v' ∧ v' ≤ v + 1)

/-- Interception of a fixed walk by the BFS state: some walk position is
queued (with a path no longer than the position index plus one) or visited
(with a recorded length no larger than that). -/
def Kinv (w : List Coordinate) (Q : List QEntry) (V : List (Coordinate × Nat)) : Prop :=
  ∃ j c, w.get? j = some c ∧
    ((∃ p, (c, p) ∈ Q ∧ p.length ≤ j + 1) ∨
     (∃ v, lookupVisited V c = some v ∧ v ≤ j + 1))

/-- Number of grid cells not yet recorded in the visited map. -/
def unvisitedCount (grid : Grid) (V : List (Coordinate × Nat)) : Nat :=
  ((tileset_coords grid).filter (fun c => (lookupVisited V c).isNone)).length

/-- Termination potential of the BFS loop: one pop per queue entry, at
most eight new entries per newly visited cell. -/
def bfsPhi (grid : Grid) (Q : List QEntry) (V : List (Coordinate × Nat)) : Nat :=
  Q.length + 8 * unvisitedCount grid V

/-- Whether an overlay marks a coordinate as a tentative block. -/
def blockedBy (build : Option (Coordinate → Bool)) (c : Coordinate) : Bool :=
  match build with
  | some f => f c
  | none => false

/-- Overlay inclusion: every cell blocked by the first overlay is blocked
by the second (so the first has at most the blocks of the second). -/
def SubOverlay (b2 b1 : Option (Coordinate → Bool)) : Prop :=
  ∀ c, blockedBy b2 c = true → blockedBy b1 c = true

/-! ## Theorems -/

theorem lookupVisited_cons (a : Coordinate) (n : Nat) (V : List (Coordinate × Nat))
    (c : Coordinate) :
    lookupVisited ((a, n) :: V) c = if a = c then some n else lookupVisited V c := by
  unfold lookupVisited
  by_cases h : a = c
  · rw [List.find?_cons_of_pos _ (by simpa using h), if_pos h]
    rfl
  · rw [List.find?_cons_of_neg _ (by simpa using h), if_neg h]

theorem can_move_to_some (grid : Grid) (build : Option (Coordinate → Bool))
    (c : Coordinate) :
    Adjacent.can_move_to grid build (some c) = true ↔
      ∃ t, c.get_from_with_build grid build = some t ∧ t.is_passable = true := by
  unfold Adjacent.can_move_to
  dsimp only
  cases h : c.get_from_with_build grid build with
  | none => simp
  | some t => simp

theorem get_from_some_inBounds {grid : Grid} {c : Coordinate} {t : Tile}
    (h : c.get_from grid = some t) : inBounds grid c := by
  unfold Coordinate.get_from at h
  cases hrow : grid.get? c.y with
  | none => rw [hrow] at h; simp at h
  | some row =>
    rw [hrow] at h
    dsimp only at h
    have hy : c.y < grid.length := by
      by_contra hy
      rw [List.get?_eq_none.mpr (Nat.le_of_not_lt hy)] at hrow
      exact absurd hrow (by simp)
    have hx : c.x < row.length := by
      by_contra hx
      rw [List.get?_eq_none.mpr (Nat.le_of_not_lt hx)] at h
      exact absurd h (by simp)
    refine ⟨hy, ?_⟩
    unfold rowLen
    rw [hrow]
    exact hx

theorem can_move_to_inBounds {grid : Grid} {build : Option (Coordinate → Bool)}
    {c : Coordinate} (h : Adjacent.can_move_to grid build (some c) = true) :
    inBounds grid c := by
  obtain ⟨t, hget, hpass⟩ := (can_move_to_some grid build c).mp h
  unfold Coordinate.get_from_with_build at hget
  cases build with
  | none => exact get_from_some_inBounds hget
  | some b =>
    by_cases hb : b c
    · simp [hb] at hget
      subst hget
      exact absurd hpass (by simp [Tile.is_passable])
    · simp [hb] at hget
      exact get_from_some_inBounds hget

theorem rowLen_of_rect {grid : Grid} (hrect : Rect grid) {y : Nat}
    (hy : y < grid.length) : rowLen grid y = rowLen grid 0 := by
  cases hrow : grid.get? y with
  | none => exact absurd (List.get?_eq_none.mp hrow) (Nat.not_le.mpr hy)
  | some row =>
    have hmem : row ∈ grid := List.get?_mem hrow
    have := hrect row hmem
    unfold rowLen
    rw [hrow]
    exact this

theorem mem_toList_iff (a : Adjacent) (b : Coordinate) :
    b ∈ a.toList ↔
      a.up = some b ∨ a.right = some b ∨ a.down = some b ∨ a.left = some b ∨
      a.up_right = some b ∨ a.down_right = some b ∨ a.down_left = some b ∨
      a.up_left = some b := by
  simp only [Adjacent.toList, List.mem_filterMap, List.mem_cons, List.not_mem_nil,
    or_false, id_eq]
  constructor
  · rintro ⟨o, ho, hob⟩
    rcases ho with h | h | h | h | h | h | h | h <;> rw [h] at hob <;> tauto
  · intro h
    rcases h with h | h | h | h | h | h | h | h
    · exact ⟨a.up, Or.inl rfl, h⟩
    · exact ⟨a.right, Or.inr (Or.inl rfl), h⟩
    · exact ⟨a.down, Or.inr (Or.inr (Or.inl rfl)), h⟩
    · exact ⟨a.left, Or.inr (Or.inr (Or.inr (Or.inl rfl))), h⟩
    · exact ⟨a.up_right, Or.inr (Or.inr (Or.inr (Or.inr (Or.inl rfl)))), h⟩
    · exact ⟨a.down_right, Or.inr (Or.inr (Or.inr (Or.inr (Or.inr (Or.inl rfl))))), h⟩
    · exact ⟨a.down_left,
        Or.inr (Or.inr (Or.inr (Or.inr (Or.inr (Or.inr (Or.inl rfl)))))), h⟩
    · exact ⟨a.up_left,
        Or.inr (Or.inr (Or.inr (Or.inr (Or.inr (Or.inr (Or.inr rfl)))))), h⟩

theorem toList_length_le (a : Adjacent) : a.toList.length ≤ 8 := by
  have := List.length_filterMap_le id
    [a.up, a.right, a.down, a.left, a.up_right, a.down_right, a.down_left, a.up_left]
  simpa [Adjacent.toList] using this

theorem with_build_toList_subset {grid : Grid} {build : Option (Coordinate → Bool)}
    {c b : Coordinate} {d : Bool}
    (h : b ∈ (Adjacent.from_grid_coordinate_with_build grid build c d).toList) :
    b ∈ (Adjacent.from_grid_coordinate grid c d).toList := by
  unfold Adjacent.from_grid_coordinate_with_build at h
  cases d with
  | false => simpa using h
  | true =>
    rw [mem_toList_iff] at h ⊢
    simp only [if_true] at h
    rcases h with h | h | h | h | h | h | h | h
    · exact Or.inl h
    · exact Or.inr (Or.inl h)
    · exact Or.inr (Or.inr (Or.inl h))
    · exact Or.inr (Or.inr (Or.inr (Or.inl h)))
    · refine Or.inr (Or.inr (Or.inr (Or.inr (Or.inl ?_))))
      split at h
      · exact absurd h (by simp)
      · exact h
    · refine Or.inr (Or.inr (Or.inr (Or.inr (Or.inr (Or.inl ?_)))))
      split at h
      · exact absurd h (by simp)
      · exact h
    · refine Or.inr (Or.inr (Or.inr (Or.inr (Or.inr (Or.inr (Or.inl ?_))))))
      split at h
      · exact absurd h (by simp)
      · exact h
    · refine Or.inr (Or.inr (Or.inr (Or.inr (Or.inr (Or.inr (Or.inr ?_))))))
      split at h
      · exact absurd h (by simp)
      · exact h

theorem from_grid_mem_inBounds {grid : Grid} {c b : Coordinate} {d : Bool}
    (hrect : Rect grid) (hc : inBounds grid c)
    (h : b ∈ (Adjacent.from_grid_coordinate grid c d).toList) : inBounds grid b := by
  obtain ⟨hy, hx⟩ := hc
  have hrow : ∀ y', y' < grid.length → rowLen grid y' = rowLen grid c.y := by
    intro y' hy'
    rw [rowLen_of_rect hrect hy', rowLen_of_rect hrect hy]
  rw [mem_toList_iff] at h
  unfold Adjacent.from_grid_coordinate at h
  simp only at h
  rcases h with h | h | h | h | h | h | h | h <;> split at h <;>
    first
    | (rename_i hcond
       rw [Option.some_inj] at h
       subst h
       simp only [Bool.and_eq_true, decide_eq_true_eq] at hcond
       unfold inBounds
       dsimp only
       refine ⟨by omega, ?_⟩
       rw [hrow _ (by omega)]
       omega)
    | injection h

theorem with_build_mem_inBounds {grid : Grid} {build : Option (Coordinate → Bool)}
    {c b : Coordinate} {d : Bool} (hrect : Rect grid) (hc : inBounds grid c)
    (h : b ∈ (Adjacent.from_grid_coordinate_with_build grid build c d).toList) :
    inBounds grid b :=
  from_grid_mem_inBounds hrect hc (with_build_toList_subset h)

theorem mem_tileset_coords {grid : Grid} {c : Coordinate} :
    c ∈ tileset_coords grid ↔ inBounds grid c := by
  unfold tileset_coords inBounds
  simp only [List.mem_flatMap, List.mem_range, List.mem_map]
  constructor
  · rintro ⟨y, hy, x, hx, rfl⟩
    exact ⟨hy, hx⟩
  · rintro ⟨hy, hx⟩
    exact ⟨c.y, hy, c.x, hx, rfl⟩

theorem filter_length_mono {α : Type} (l : List α) (p q : α → Bool)
    (h : ∀ x, p x = true → q x = true) :
    (l.filter p).length ≤ (l.filter q).length := by
  induction l with
  | nil => simp
  | cons a t ih =>
    rw [List.filter_cons, List.filter_cons]
    by_cases hp : p a = true
    · rw [if_pos hp, if_pos (h a hp)]
      simpa using ih
    · rw [if_neg hp]
      split
      · exact Nat.le_trans ih (by simp)
      · exact ih

theorem filter_length_strict {α : Type} (l : List α) (p q : α → Bool) (c : α)
    (hc : c ∈ l) (hqc : q c = true) (hpc : p c = false)
    (h : ∀ x, p x = true → q x = true) :
    (l.filter p).length < (l.filter q).length := by
  induction l with
  | nil => cases hc
  | cons a t ih =>
    rw [List.filter_cons, List.filter_cons]
    rcases List.mem_cons.mp hc with rfl | hmem
    · rw [if_neg (by simp [hpc]), if_pos hqc]
      exact Nat.lt_succ_of_le (filter_length_mono t p q h)
    · by_cases hp : p a = true
      · rw [if_pos hp, if_pos (h a hp)]
        simpa using ih hmem
      · rw [if_neg hp]
        split

        · exact Nat.lt_trans (ih hmem) (by simp)
        · exact ih hmem

theorem unvisitedCount_cons_lt {grid : Grid} {V : List (Coordinate × Nat)}
    {c : Coordinate} (n : Nat) (hin : inBounds grid c)
    (hnone : lookupVisited V c = none) :
    unvisitedCount grid ((c, n) :: V) < unvisitedCount grid V := by
  apply filter_length_strict _ _ _ c (mem_tileset_coords.mpr hin)
  · simp [hnone]
  · simp [lookupVisited_cons]
  · intro x hx
    simp only [lookupVisited_cons] at hx
    split at hx
    · simp at hx
    · simpa using hx

theorem bfs_skip_iff (V : List (Coordinate × Nat)) (c : Coordinate) (n : Nat) :
    bfs_skip V c n = true ↔ ∃ v, lookupVisited V c = some v ∧ v ≤ n := by
  unfold bfs_skip
  cases h : lookupVisited V c with
  | none => simp
  | some v => simp

theorem pairwise_of_mem {α : Type} {R : α → α → Prop} {l : List α}
    (h : ∀ a ∈ l, ∀ b ∈ l, R a b) : l.Pairwise R := by
  induction l with
  | nil => exact List.Pairwise.nil
  | cons a t ih =>
    refine List.Pairwise.cons (fun b hb => h a (by simp) b (by simp [hb])) (ih ?_)
    intro x hx y hy
    exact h x (by simp [hx]) y (by simp [hy])

theorem mem_bfs_children {grid : Grid} {build : Option (Coordinate → Bool)}
    {diagonals : Bool} {c : Coordinate} {p : List Coordinate} {e : QEntry} :
    e ∈ bfs_children grid build diagonals c p ↔
      ∃ b ∈ (Adjacent.from_grid_coordinate_with_build grid build c diagonals).toList,
        e = (b, p ++ [b]) := by
  unfold bfs_children
  rw [List.mem_map]
  constructor
  · rintro ⟨b, hb, rfl⟩
    exact ⟨b, hb, rfl⟩
  · rintro ⟨b, hb, rfl⟩
    exact ⟨b, hb, rfl⟩

theorem bfs_children_length {grid : Grid} {build : Option (Coordinate → Bool)}
    {diagonals : Bool} {c : Coordinate} {p : List Coordinate} {e : QEntry}
    (h : e ∈ bfs_children grid build diagonals c p) : e.2.length = p.length + 1 := by
  obtain ⟨b, _, rfl⟩ := mem_bfs_children.mp h
  simp

theorem entry_ok_child {grid : Grid} {build : Option (Coordinate → Bool)} {diagonals : Bool}
    {start c b : Coordinate} {p : List Coordinate}
    (he : EntryOk grid build diagonals start (c, p))
    (hpass : Adjacent.can_move_to grid build (some c) = true)
    (hb : b ∈ (Adjacent.from_grid_coordinate_with_build grid build c diagonals).toList) :
    EntryOk grid build diagonals start (b, p ++ [b]) := by
  obtain ⟨hh, hl, hch, hp⟩ := he
  dsimp only at hh hl hch hp
  have hne : p ≠ [] := by
    intro hnil
    rw [hnil] at hh
    exact absurd hh (by simp)
  refine ⟨?_, ?_, ?_, ?_⟩
  · show (p ++ [b]).head? = some start
    rw [List.head?_append_of_ne_nil _ hne]
    exact hh
  · show (p ++ [b]).getLast? = some b
    simp
  · show List.Chain' _ (p ++ [b])
    rw [List.chain'_append]
    refine ⟨hch, List.chain'_singleton _, ?_⟩
    intro x hx y hy
    simp only [List.head?_cons, Option.mem_def, Option.some_inj] at hy
    subst hy
    rw [Option.mem_def, hl, Option.some_inj] at hx
    subst hx
    exact hb
  · show ∀ x ∈ (p ++ [b]).dropLast, _
    rw [List.dropLast_concat]
    intro x hx
    have hsplit := List.dropLast_append_getLast? c hl
    rw [← hsplit] at hx
    rcases List.mem_append.mp hx with hx' | hx'
    · exact hp x hx'
    · have : x = c := by simpa using hx'
      subst this
      exact hpass

theorem bfs_inv_skip {grid : Grid} {build : Option (Coordinate → Bool)} {end_point : Tile}
    {diagonals : Bool} {start c : Coordinate} {p : List Coordinate} {rest : List QEntry}
    {V : List (Coordinate × Nat)}
    (hinv : BfsInv grid build end_point diagonals start ((c, p) :: rest) V)
    (hskip : bfs_skip V c p.length = true) :
    BfsInv grid build end_point diagonals start rest V := by
  obtain ⟨v, hv, hvle⟩ := (bfs_skip_iff V c p.length).mp hskip
  refine ⟨?_, ?_, ?_, ?_, ?_, ?_, ?_⟩
  · exact fun e he => hinv.entry_ok e (List.mem_cons_of_mem _ he)
  · exact fun e he => hinv.entry_inBounds e (List.mem_cons_of_mem _ he)
  · exact (List.pairwise_cons.mp hinv.sorted).2
  · exact fun e1 h1 e2 h2 =>
      hinv.spread e1 (List.mem_cons_of_mem _ h1) e2 (List.mem_cons_of_mem _ h2)
  · exact fun c' v' hl e he => hinv.visited_le c' v' hl e (List.mem_cons_of_mem _ he)
  · exact hinv.visited_not_target
  · intro c' v' hl t ht hp b hb
    rcases hinv.visited_cover c' v' hl t ht hp b hb with ⟨q, hq, hqle⟩ | hvis
    · rcases List.mem_cons.mp hq with heq | hq'
      · have hbc : b = c := congrArg Prod.fst heq
        have hpq : q = p := congrArg Prod.snd heq
        subst hbc
        right
        exact ⟨v, hv, Nat.le_trans hvle (hpq ▸ hqle)⟩
      · exact Or.inl ⟨q, hq', hqle⟩
    · exact Or.inr hvis

theorem kinv_skip {w : List Coordinate} {c : Coordinate} {p : List Coordinate}
    {rest : List QEntry} {V : List (Coordinate × Nat)}
    (hk : Kinv w ((c, p) :: rest) V) (hskip : bfs_skip V c p.length = true) :
    Kinv w rest V := by
  obtain ⟨v, hv, hvle⟩ := (bfs_skip_iff V c p.length).mp hskip
  obtain ⟨j, cj, hj, hcase⟩ := hk
  rcases hcase with ⟨q, hq, hqle⟩ | hvis
  · rcases List.mem_cons.mp hq with heq | hq'
    · have hbc : cj = c := congrArg Prod.fst heq
      have hpq : q = p := congrArg Prod.snd heq
      subst hbc
      exact ⟨j, cj, hj, Or.inr ⟨v, hv, Nat.le_trans hvle (hpq ▸ hqle)⟩⟩
    · exact ⟨j, cj, hj, Or.inl ⟨q, hq', hqle⟩⟩
  · exact ⟨j, cj, hj, Or.inr hvis⟩

theorem bfs_not_skip_none {grid : Grid} {build : Option (Coordinate → Bool)}
    {end_point : Tile} {diagonals : Bool} {start c : Coordinate} {p : List Coordinate}
    {rest : List QEntry} {V : List (Coordinate × Nat)}
    (hinv : BfsInv grid build end_point diagonals start ((c, p) :: rest) V)
    (hskip : bfs_skip V c p.length = false) :
    lookupVisited V c = none := by
  cases hv : lookupVisited V c with
  | none => rfl
  | some v =>
    have hle := hinv.visited_le c v hv (c, p) (List.mem_cons_self _ _)
    have htrue : bfs_skip V c p.length = true := (bfs_skip_iff _ _ _).mpr ⟨v, hv, hle⟩
    rw [htrue] at hskip
    cases hskip

theorem bfs_inv_process {grid : Grid} {build : Option (Coordinate → Bool)} {end_point : Tile}
    {diagonals : Bool} {start c : Coordinate} {p : List Coordinate} {rest : List QEntry}
    {V : List (Coordinate × Nat)} {tile : Tile}
    (hrect : Rect grid)
    (hinv : BfsInv grid build end_point diagonals start ((c, p) :: rest) V)
    (hskip : bfs_skip V c p.length = false)
    (htile : c.get_from_with_build grid build = some tile)
    (hne : tile ≠ end_point) :
    BfsInv grid build end_point diagonals start
      (if tile.is_passable then rest ++ bfs_children grid build diagonals c p else rest)
      ((c, p.length) :: V) := by
  have hvnone := bfs_not_skip_none hinv hskip
  have hheadok := hinv.entry_ok (c, p) (List.mem_cons_self _ _)
  have hheadin := hinv.entry_inBounds (c, p) (List.mem_cons_self _ _)
  have hsort := List.pairwise_cons.mp hinv.sorted
  have hheadle : ∀ e ∈ rest, p.length ≤ e.2.length := fun e he => hsort.1 e he
  by_cases hpass : tile.is_passable = true
  · have hcan : Adjacent.can_move_to grid build (some c) = true :=
      (can_move_to_some grid build c).mpr ⟨tile, htile, hpass⟩
    rw [if_pos hpass]
    refine ⟨?_, ?_, ?_, ?_, ?_, ?_, ?_⟩
    · intro e he
      rcases List.mem_append.mp he with h | h
      · exact hinv.entry_ok e (List.mem_cons_of_mem _ h)
      · obtain ⟨b, hb, rfl⟩ := mem_bfs_children.mp h
        exact entry_ok_child hheadok hcan hb
    · intro e he
      rcases List.mem_append.mp he with h | h
      · exact hinv.entry_inBounds e (List.mem_cons_of_mem _ h)
      · obtain ⟨b, hb, rfl⟩ := mem_bfs_children.mp h
        exact with_build_mem_inBounds hrect hheadin hb
    · rw [List.pairwise_append]
      refine ⟨hsort.2, ?_, ?_⟩
      · apply pairwise_of_mem
        intro a ha b hb
        rw [bfs_children_length ha, bfs_children_length hb]
      · intro a ha b hb
        rw [bfs_children_length hb]
        have := hinv.spread a (List.mem_cons_of_mem _ ha) (c, p) (List.mem_cons_self _ _)
        dsimp only at this
        omega
    · intro e1 h1 e2 h2
      rcases List.mem_append.mp h1 with h1' | h1' <;> rcases List.mem_append.mp h2 with h2' | h2'
      · exact hinv.spread e1 (List.mem_cons_of_mem _ h1') e2 (List.mem_cons_of_mem _ h2')
      · rw [bfs_children_length h2']
        have := hinv.spread e1 (List.mem_cons_of_mem _ h1') (c, p) (List.mem_cons_self _ _)
        dsimp only at this
        omega
      · rw [bfs_children_length h1']
        have := hheadle e2 h2'
        omega
      · rw [bfs_children_length h1', bfs_children_length h2']
        omega
    · intro c' v' hl e he
      rw [lookupVisited_cons] at hl
      rcases List.mem_append.mp he with hrest | hchild
      · split at hl
        · rw [Option.some_inj] at hl
          subst hl
          exact hheadle e hrest
        · exact hinv.visited_le c' v' hl e (List.mem_cons_of_mem _ hrest)
      · have hcl := bfs_children_length hchild
        split at hl
        · rw [Option.some_inj] at hl
          subst hl
          omega
        · have := hinv.visited_le c' v' hl (c, p) (List.mem_cons_self _ _)
          dsimp only at this
          omega
    · intro c' v' hl
      rw [lookupVisited_cons] at hl
      split at hl
      · rename_i heq
        subst heq
        exact ⟨tile, htile, hne⟩
      · exact hinv.visited_not_target c' v' hl
    · intro c' v' hl t ht hp b hb
      rw [lookupVisited_cons] at hl
      split at hl
      · rename_i heq
        subst heq
        rw [Option.some_inj] at hl
        subst hl
        left
        refine ⟨p ++ [b], ?_, by simp⟩
        exact List.mem_append_right _ (mem_bfs_children.mpr ⟨b, hb, rfl⟩)
      · rename_i hneq
        rcases hinv.visited_cover c' v' hl t ht hp b hb with ⟨q, hq, hqle⟩ | ⟨v'', hv'', hle''⟩
        · rcases List.mem_cons.mp hq with heq | hq'
          · have hbc : b = c := congrArg Prod.fst heq
            have hpq : q = p := congrArg Prod.snd heq
            subst hbc
            right
            refine ⟨p.length, ?_, ?_⟩
            · rw [lookupVisited_cons, if_pos rfl]
            · rw [← hpq]
              exact hqle
          · exact Or.inl ⟨q, List.mem_append_left _ hq', hqle⟩
        · right
          refine ⟨v'', ?_, hle''⟩
          rw [lookupVisited_cons]
          split
          · rename_i heqb
            subst heqb
            rw [hvnone] at hv''
            cases hv''
          · exact hv''
  · rw [if_neg hpass]
    refine ⟨?_, ?_, ?_, ?_, ?_, ?_, ?_⟩
    · exact fun e he => hinv.entry_ok e (List.mem_cons_of_mem _ he)
    · exact fun e he => hinv.entry_inBounds e (List.mem_cons_of_mem _ he)
    · exact hsort.2
    · exact fun e1 h1 e2 h2 =>
        hinv.spread e1 (List.mem_cons_of_mem _ h1) e2 (List.mem_cons_of_mem _ h2)
    · intro c' v' hl e he
      rw [lookupVisited_cons] at hl
      split at hl
      · rw [Option.some_inj] at hl
        subst hl
        exact hheadle e he
      · exact hinv.visited_le c' v' hl e (List.mem_cons_of_mem _ he)
    · intro c' v' hl
      rw [lookupVisited_cons] at hl
      split at hl
      · rename_i heq
        subst heq
        exact ⟨tile, htile, hne⟩
      · exact hinv.visited_not_target c' v' hl
    · intro c' v' hl t ht hp b hb
      rw [lookupVisited_cons] at hl
      split at hl
      · rename_i heq
        subst heq
        rw [htile, Option.some_inj] at ht
        subst ht
        exact absurd hp hpass
      · rename_i hneq
        rcases hinv.visited_cover c' v' hl t ht hp b hb with ⟨q, hq, hqle⟩ | ⟨v'', hv'', hle''⟩
        · rcases List.mem_cons.mp hq with heq | hq'
          · have hbc : b = c := congrArg Prod.fst heq
            have hpq : q = p := congrArg Prod.snd heq
            subst hbc
            right
            refine ⟨p.length, ?_, ?_⟩
            · rw [lookupVisited_cons, if_pos rfl]
            · rw [← hpq]
              exact hqle
          · exact Or.inl ⟨q, hq', hqle⟩
        · right
          refine ⟨v'', ?_, hle''⟩
          rw [lookupVisited_cons]
          split
          · rename_i heqb
            subst heqb
            rw [hvnone] at hv''
            cases hv''
          · exact hv''

theorem walk_not_last {grid : Grid} {build : Option (Coordinate → Bool)} {end_point : Tile}
    {diagonals : Bool} {start : Coordinate} {w : List Coordinate} {j : Nat} {c : Coordinate}
    {tile : Tile}
    (hw : TargetWalk grid build end_point diagonals start w)
    (hj : w.get? j = some c)
    (htile : c.get_from_with_build grid build = some tile)
    (hne : tile ≠ end_point) :
    j + 1 < w.length := by
  obtain ⟨-, -, -, -, last, hlast, hlastt⟩ := hw
  rw [List.get?_eq_getElem?] at hj
  obtain ⟨hjlt, -⟩ := List.getElem?_eq_some.mp hj
  by_contra hge
  have hjeq : j = w.length - 1 := by omega
  rw [List.getLast?_eq_getElem?, ← hjeq, hj, Option.some_inj] at hlast
  subst hlast
  rw [htile, Option.some_inj] at hlastt
  exact hne hlastt

theorem walk_mem_dropLast {w : List Coordinate} {j : Nat} {c : Coordinate}
    (hj : w.get? j = some c) (hlt : j + 1 < w.length) : c ∈ w.dropLast := by
  rw [List.dropLast_eq_take]
  refine List.getElem?_mem (n := j) ?_
  rw [List.getElem?_take, if_pos (by omega), ← List.get?_eq_getElem?]
  exact hj

theorem walk_next_step {grid : Grid} {build : Option (Coordinate → Bool)} {end_point : Tile}
    {diagonals : Bool} {start : Coordinate} {w : List Coordinate} {j : Nat} {c : Coordinate}
    (hw : TargetWalk grid build end_point diagonals start w)
    (hj : w.get? j = some c) (hlt : j + 1 < w.length) :
    ∃ b, w.get? (j + 1) = some b ∧ stepOk grid build diagonals c b := by
  obtain ⟨-, hchain, -, -, -⟩ := hw
  rw [List.get?_eq_getElem?] at hj
  obtain ⟨hjlt, hjget⟩ := List.getElem?_eq_some.mp hj
  refine ⟨w.get ⟨j + 1, hlt⟩, ?_, ?_⟩
  · rw [List.get?_eq_getElem?]
    exact List.getElem?_eq_getElem hlt
  · have := List.chain'_iff_get.mp hchain j (by omega)
    rw [List.get_eq_getElem, List.get_eq_getElem] at this
    rw [← hjget]
    exact this

theorem kinv_process {grid : Grid} {build : Option (Coordinate → Bool)} {end_point : Tile}
    {diagonals : Bool} {start c : Coordinate} {p : List Coordinate} {rest : List QEntry}
    {V : List (Coordinate × Nat)} {tile : Tile} {w : List Coordinate}
    (hw : TargetWalk grid build end_point diagonals start w)
    (hk : Kinv w ((c, p) :: rest) V)
    (hskip : bfs_skip V c p.length = false)
    (htile : c.get_from_with_build grid build = some tile)
    (hne : tile ≠ end_point) :
    Kinv w (if tile.is_passable then rest ++ bfs_children grid build diagonals c p else rest)
      ((c, p.length) :: V) := by
  obtain ⟨j, cj, hj, hcase⟩ := hk
  rcases hcase with ⟨q, hq, hqle⟩ | ⟨v, hv, hvle⟩
  · rcases List.mem_cons.mp hq with heq | hq'
    · have hbc : cj = c := congrArg Prod.fst heq
      have hpq : q = p := congrArg Prod.snd heq
      subst hbc
      subst hpq
      have hlt : j + 1 < w.length := walk_not_last hw hj htile hne
      have hcdrop : cj ∈ w.dropLast := walk_mem_dropLast hj hlt
      have hcpass : Adjacent.can_move_to grid build (some cj) = true := hw.2.2.1 cj hcdrop
      have hpassT : tile.is_passable = true := by
        obtain ⟨t, ht', hp'⟩ := (can_move_to_some grid build cj).mp hcpass
        rw [htile, Option.some_inj] at ht'
        subst ht'
        exact hp'
      obtain ⟨b, hb, hstep⟩ := walk_next_step hw hj hlt
      rw [if_pos hpassT]
      refine ⟨j + 1, b, hb, Or.inl ⟨q ++ [b], ?_, by simp; omega⟩⟩
      exact List.mem_append_right _ (mem_bfs_children.mpr ⟨b, hstep, rfl⟩)
    · refine ⟨j, cj, hj, Or.inl ⟨q, ?_, hqle⟩⟩
      split
      · exact List.mem_append_left _ hq'
      · exact hq'
  · refine ⟨j, cj, hj, Or.inr ?_⟩
    rw [lookupVisited_cons]
    by_cases heq : c = cj
    · subst heq
      rw [if_pos rfl]
      refine ⟨p.length, rfl, ?_⟩
      have hnle : ¬v ≤ p.length := by
        intro hle
        have htrue := (bfs_skip_iff V c p.length).mpr ⟨v, hv, hle⟩
        rw [htrue] at hskip
        cases hskip
      omega
    · rw [if_neg heq]
      exact ⟨v, hv, hvle⟩

theorem kinv_chase {grid : Grid} {build : Option (Coordinate → Bool)} {end_point : Tile}
    {diagonals : Bool} {start : Coordinate} {w : List Coordinate} {Q : List QEntry}
    {V : List (Coordinate × Nat)}
    (hinv : BfsInv grid build end_point diagonals start Q V)
    (hw : TargetWalk grid build end_point diagonals start w) :
    ∀ n j c v, w.length - j ≤ n → w.get? j = some c →
      lookupVisited V c = some v → v ≤ j + 1 →
      ∃ j' c' p', w.get? j' = some c' ∧ (c', p') ∈ Q ∧ p'.length ≤ j' + 1 := by
  intro n
  induction n with
  | zero =>
    intro j c v hn hj hv hvle
    rw [List.get?_eq_getElem?] at hj
    obtain ⟨hjlt, -⟩ := List.getElem?_eq_some.mp hj
    omega
  | succ n ih =>
    intro j c v hn hj hv hvle
    obtain ⟨t, ht, htne⟩ := hinv.visited_not_target c v hv
    have hlt : j + 1 < w.length := walk_not_last hw hj ht htne
    have hcdrop : c ∈ w.dropLast := walk_mem_dropLast hj hlt
    have hcpass : Adjacent.can_move_to grid build (some c) = true := hw.2.2.1 c hcdrop
    have hpassT : t.is_passable = true := by
      obtain ⟨t', ht', hp'⟩ := (can_move_to_some grid build c).mp hcpass
      rw [ht, Option.some_inj] at ht'
      subst ht'
      exact hp'
    obtain ⟨b, hb, hstep⟩ := walk_next_step hw hj hlt
    rcases hinv.visited_cover c v hv t ht hpassT b hstep with ⟨q, hq, hqle⟩ | ⟨v', hv', hvle'⟩
    · exact ⟨j + 1, b, q, hb, hq, by omega⟩
    · exact ih (j + 1) b v' (by omega) hb hv' (by omega)

theorem inBounds_get_from_some {grid : Grid} {c : Coordinate} (h : inBounds grid c) :
    ∃ t, c.get_from grid = some t := by
  obtain ⟨hy, hx⟩ := h
  unfold Coordinate.get_from
  cases hrow : grid.get? c.y with
  | none => exact absurd (List.get?_eq_none.mp hrow) (Nat.not_le.mpr hy)
  | some row =>
    unfold rowLen at hx
    rw [hrow] at hx
    dsimp only at hx ⊢
    cases ht : row.get? c.x with
    | none => exact absurd (List.get?_eq_none.mp ht) (Nat.not_le.mpr hx)
    | some t => exact ⟨t, rfl⟩

theorem inBounds_with_build_some {grid : Grid} {build : Option (Coordinate → Bool)}
    {c : Coordinate} (h : inBounds grid c) :
    ∃ t, c.get_from_with_build grid build = some t := by
  obtain ⟨t, ht⟩ := inBounds_get_from_some h
  unfold Coordinate.get_from_with_build
  cases build with
  | none => exact ⟨t, ht⟩
  | some b =>
    by_cases hb : b c
    · exact ⟨Tile.Block, by simp [hb]⟩
    · exact ⟨t, by simp [hb, ht]⟩

theorem bfs_loop_nil_eq (grid : Grid) (build : Option (Coordinate → Bool))
    (end_point : Tile) (diagonals : Bool) (fuel : Nat) (V : List (Coordinate × Nat)) :
    bfs_loop grid build end_point diagonals (fuel + 1) [] V = some none := rfl

theorem bfs_loop_cons_eq (grid : Grid) (build : Option (Coordinate → Bool))
    (end_point : Tile) (diagonals : Bool) (fuel : Nat) (c : Coordinate)
    (p : List Coordinate) (rest : List QEntry) (V : List (Coordinate × Nat)) :
    bfs_loop grid build end_point diagonals (fuel + 1) ((c, p) :: rest) V =
      if bfs_skip V c p.length then
        bfs_loop grid build end_point diagonals fuel rest V
      else
        match c.get_from_with_build grid build with
        | none => some none
        | some tile =>
          if tile = end_point then some (some p)
          else
            bfs_loop grid build end_point diagonals fuel
              (if tile.is_passable then rest ++ bfs_children grid build diagonals c p
               else rest)
              ((c, p.length) :: V) := rfl

theorem bfs_newQ_length_le (grid : Grid) (build : Option (Coordinate → Bool))
    (diagonals : Bool) (c : Coordinate) (p : List Coordinate) (rest : List QEntry)
    (tile : Tile) :
    (if tile.is_passable then rest ++ bfs_children grid build diagonals c p
     else rest).length ≤ rest.length + 8 := by
  split
  · rw [List.length_append]
    have hc : (bfs_children grid build diagonals c p).length ≤ 8 := by
      unfold bfs_children
      rw [List.length_map]
      exact toList_length_le _
    omega
  · omega

theorem bfs_phi_process {grid : Grid} {build : Option (Coordinate → Bool)}
    {end_point : Tile} {diagonals : Bool} {start c : Coordinate} {p : List Coordinate}
    {rest : List QEntry} {V : List (Coordinate × Nat)}
    (hinv : BfsInv grid build end_point diagonals start ((c, p) :: rest) V)
    (hskip : bfs_skip V c p.length = false) (newQ : List QEntry)
    (hlen : newQ.length ≤ rest.length + 8) :
    bfsPhi grid newQ ((c, p.length) :: V) < bfsPhi grid ((c, p) :: rest) V := by
  have hin : inBounds grid c := hinv.entry_inBounds (c, p) (List.mem_cons_self _ _)
  have hu := unvisitedCount_cons_lt p.length hin
    (bfs_not_skip_none hinv hskip)
  unfold bfsPhi
  simp only [List.length_cons]
  omega

theorem bfs_loop_isSome {grid : Grid} {build : Option (Coordinate → Bool)}
    {end_point : Tile} {diagonals : Bool} {start : Coordinate} (hrect : Rect grid) :
    ∀ fuel Q V, BfsInv grid build end_point diagonals start Q V →
      bfsPhi grid Q V < fuel →
      (bfs_loop grid build end_point diagonals fuel Q V).isSome = true := by
  intro fuel
  induction fuel with
  | zero => intro Q V _ hphi; omega
  | succ fuel ih =>
    intro Q V hinv hphi
    match Q with
    | [] => rw [bfs_loop_nil_eq]; rfl
    | (c, p) :: rest =>
      rw [bfs_loop_cons_eq]
      by_cases hskip : bfs_skip V c p.length = true
      · rw [if_pos hskip]
        refine ih rest V (bfs_inv_skip hinv hskip) ?_
        unfold bfsPhi at hphi ⊢
        simp only [List.length_cons] at hphi
        omega
      · have hskip' : bfs_skip V c p.length = false := by simpa using hskip
        rw [if_neg (by simp [hskip'])]
        cases htile : c.get_from_with_build grid build with
        | none => rfl
        | some tile =>
          dsimp only
          by_cases hend : tile = end_point
          · rw [if_pos hend]; rfl
          · rw [if_neg hend]
            refine ih _ _ (bfs_inv_process hrect hinv hskip' htile hend) ?_
            exact Nat.lt_of_lt_of_le
              (bfs_phi_process hinv hskip' _ (bfs_newQ_length_le grid build diagonals c p rest tile))
              (Nat.lt_succ_iff.mp hphi)

theorem bfs_loop_sound {grid : Grid} {build : Option (Coordinate → Bool)}
    {end_point : Tile} {diagonals : Bool} {start : Coordinate} (hrect : Rect grid)
    (hstart : Adjacent.can_move_to grid build (some start) = true) :
    ∀ fuel Q V p, BfsInv grid build end_point diagonals start Q V →
      bfs_loop grid build end_point diagonals fuel Q V = some (some p) →
      TargetWalk grid build end_point diagonals start p := by
  intro fuel
  induction fuel with
  | zero =>
    intro Q V p _ h
    simp [bfs_loop] at h
  | succ fuel ih =>
    intro Q V p hinv h
    match Q with
    | [] =>
      rw [bfs_loop_nil_eq] at h
      simp at h
    | (c, q) :: rest =>
      rw [bfs_loop_cons_eq] at h
      by_cases hskip : bfs_skip V c q.length = true
      · rw [if_pos hskip] at h
        exact ih rest V p (bfs_inv_skip hinv hskip) h
      · have hskip' : bfs_skip V c q.length = false := by simpa using hskip
        rw [if_neg (by simp [hskip'])] at h
        cases htile : c.get_from_with_build grid build with
        | none =>
          rw [htile] at h
          simp at h
        | some tile =>
          rw [htile] at h
          dsimp only at h
          by_cases hend : tile = end_point
          · rw [if_pos hend] at h
            have hqp : q = p := by simpa using h
            subst hqp
            obtain ⟨hh, hl, hch, hp⟩ := hinv.entry_ok (c, q) (List.mem_cons_self _ _)
            dsimp only at hh hl hch hp
            exact ⟨hh, hch, hp, hstart, c, hl, by rw [htile, hend]⟩
          · rw [if_neg hend] at h
            exact ih _ _ p (bfs_inv_process hrect hinv hskip' htile hend) h

theorem bfs_loop_min {grid : Grid} {build : Option (Coordinate → Bool)}
    {end_point : Tile} {diagonals : Bool} {start : Coordinate} {w : List Coordinate}
    (hrect : Rect grid)
    (hw : TargetWalk grid build end_point diagonals start w) :
    ∀ fuel Q V, BfsInv grid build end_point diagonals start Q V → Kinv w Q V →
      bfsPhi grid Q V < fuel →
      ∃ p, bfs_loop grid build end_point diagonals fuel Q V = some (some p) ∧
        p.length ≤ w.length := by
  intro fuel
  induction fuel with
  | zero => intro Q V _ _ hphi; omega
  | succ fuel ih =>
    intro Q V hinv hkinv hphi
    match Q with
    | [] =>
      obtain ⟨j, cj, hj, hcase⟩ := hkinv
      rcases hcase with ⟨q, hq, -⟩ | ⟨v, hv, hvle⟩
      · exact absurd hq (List.not_mem_nil _)
      · obtain ⟨j', c', p', -, hq', -⟩ :=
          kinv_chase hinv hw w.length j cj v (by omega) hj hv hvle
        exact absurd hq' (List.not_mem_nil _)
    | (c, q) :: rest =>
      rw [bfs_loop_cons_eq]
      by_cases hskip : bfs_skip V c q.length = true
      · rw [if_pos hskip]
        refine ih rest V (bfs_inv_skip hinv hskip) (kinv_skip hkinv hskip) ?_
        unfold bfsPhi at hphi ⊢
        simp only [List.length_cons] at hphi
        omega
      · have hskip' : bfs_skip V c q.length = false := by simpa using hskip
        rw [if_neg (by simp [hskip'])]
        have hbs : ∃ u, c.get_from_with_build grid build = some u :=
          inBounds_with_build_some
            (hinv.entry_inBounds (c, q) (List.mem_cons_self _ _))
        obtain ⟨tile, htile⟩ := hbs
        rw [htile]
        dsimp only
        by_cases hend : tile = end_point
        · rw [if_pos hend]
          refine ⟨q, rfl, ?_⟩
          -- extract a queued interception of the walk
          have hqueue : ∃ j' c' p', w.get? j' = some c' ∧
              (c', p') ∈ (c, q) :: rest ∧ p'.length ≤ j' + 1 := by
            obtain ⟨j, cj, hj, hcase⟩ := hkinv
            rcases hcase with ⟨q', hq', hle'⟩ | ⟨v, hv, hvle⟩
            · exact ⟨j, cj, q', hj, hq', hle'⟩
            · exact kinv_chase hinv hw w.length j cj v (by omega) hj hv hvle
          obtain ⟨j', c', p', hj', hq', hle'⟩ := hqueue
          have hj'lt : j' < w.length := by
            rw [List.get?_eq_getElem?] at hj'
            exact (List.getElem?_eq_some.mp hj').1
          have hqp' : q.length ≤ p'.length := by
            rcases List.mem_cons.mp hq' with heq | hmem
            · have : p' = q := congrArg Prod.snd heq
              rw [this]
            · have := (List.pairwise_cons.mp hinv.sorted).1 (c', p') hmem
              exact this
          omega
        · rw [if_neg hend]
          refine ih _ _ (bfs_inv_process hrect hinv hskip' htile hend)
            (kinv_process hw hkinv hskip' htile hend) ?_
          exact Nat.lt_of_lt_of_le
            (bfs_phi_process hinv hskip' _ (bfs_newQ_length_le grid build diagonals c q rest tile))
            (Nat.lt_succ_iff.mp hphi)

theorem bfs_initial_inv {grid : Grid} {build : Option (Coordinate → Bool)}
    {end_point : Tile} {diagonals : Bool} {start : Coordinate}
    (hstart : Adjacent.can_move_to grid build (some start) = true) :
    BfsInv grid build end_point diagonals start [(start, [start])] [] := by
  refine ⟨?_, ?_, ?_, ?_, ?_, ?_, ?_⟩
  · intro e he
    rw [List.mem_singleton] at he
    subst he
    exact ⟨rfl, rfl, List.chain'_singleton _, by simp⟩
  · intro e he
    rw [List.mem_singleton] at he
    subst he
    exact can_move_to_inBounds hstart
  · exact List.pairwise_singleton _ _
  · intro e1 h1 e2 h2
    rw [List.mem_singleton] at h1 h2
    subst h1
    subst h2
    simp
  · intro c v hl
    simp [lookupVisited] at hl
  · intro c v hl
    simp [lookupVisited] at hl
  · intro c v hl
    simp [lookupVisited] at hl

theorem kinv_initial {w : List Coordinate} {start : Coordinate}
    (hhead : w.head? = some start) : Kinv w [(start, [start])] [] := by
  refine ⟨0, start, ?_, Or.inl ⟨[start], List.mem_singleton.mpr rfl, by simp⟩⟩
  rw [List.get?_zero]
  exact hhead

theorem unvisitedCount_nil (grid : Grid) : unvisitedCount grid [] = gridCells grid := by
  unfold unvisitedCount gridCells
  rw [List.filter_eq_self.mpr]
  intro a _
  simp [lookupVisited]

/-- The full characterization of the BFS primitive on a rectangular grid:
a returned path carries the given start distance, is a walk of the search
graph reaching the target kind, and is no longer than any such walk; an
absent result means no such walk exists. -/
theorem from_grid_spec {grid : Grid} {build : Option (Coordinate → Bool)}
    {start : Coordinate} {sd : Option Nat} {end_point : Tile} {diagonals : Bool}
    (hrect : Rect grid) :
    (∀ p, ShortestPath.from_grid_coordinate_to_tile grid build start sd end_point diagonals
        = some p →
      p.start_distance = sd ∧ TargetWalk grid build end_point diagonals start p.path ∧
      ∀ w, TargetWalk grid build end_point diagonals start w → p.path.length ≤ w.length) ∧
    (ShortestPath.from_grid_coordinate_to_tile grid build start sd end_point diagonals
        = none →
      ∀ w, ¬TargetWalk grid build end_point diagonals start w) := by
  unfold ShortestPath.from_grid_coordinate_to_tile
  cases hs : start.get_from_with_build grid build with
  | none =>
    refine ⟨fun p hp => absurd hp (by simp), fun _ w hw => ?_⟩
    obtain ⟨t, ht, -⟩ := (can_move_to_some grid build start).mp hw.2.2.2.1
    rw [hs] at ht
    cases ht
  | some t =>
    dsimp only
    by_cases hp : t.is_passable = true
    · rw [if_pos hp]
      have hstart : Adjacent.can_move_to grid build (some start) = true :=
        (can_move_to_some grid build start).mpr ⟨t, hs, hp⟩
      have hinv0 : BfsInv grid build end_point diagonals start [(start, [start])] [] :=
        bfs_initial_inv hstart
      have hphi : bfsPhi grid [(start, [start])] [] < FUEL grid := by
        unfold bfsPhi FUEL
        rw [unvisitedCount_nil]
        simp only [List.length_singleton]
        omega
      have hsome := bfs_loop_isSome hrect (FUEL grid) _ _ hinv0 hphi
      obtain ⟨o, ho⟩ := Option.isSome_iff_exists.mp hsome
      constructor
      · intro p hpeq
        cases hj : (bfs_loop grid build end_point diagonals (FUEL grid)
            [(start, [start])] []).join with
        | none =>
          rw [hj] at hpeq
          exact absurd hpeq (by simp)
        | some q =>
          rw [hj] at hpeq
          have hloop : bfs_loop grid build end_point diagonals (FUEL grid)
              [(start, [start])] [] = some (some q) := by
            rw [ho] at hj ⊢
            simp at hj
            rw [hj]
          have hwalk := bfs_loop_sound hrect hstart (FUEL grid) _ _ q hinv0 hloop
          have hpq : p = ⟨q, sd⟩ := by
            simp only [Option.some_inj] at hpeq
            exact hpeq.symm
          subst hpq
          refine ⟨rfl, hwalk, ?_⟩
          intro w hw
          obtain ⟨q', hq', hlen⟩ :=
            bfs_loop_min hrect hw (FUEL grid) _ _ hinv0 (kinv_initial hw.1) hphi
          rw [hloop] at hq'
          have hqq : q' = q := by simpa using hq'.symm
          subst hqq
          exact hlen
      · intro hnone w hw
        obtain ⟨q', hq', -⟩ :=
          bfs_loop_min hrect hw (FUEL grid) _ _ hinv0 (kinv_initial hw.1) hphi
        rw [hq'] at hnone
        simp [Option.join] at hnone
    · rw [if_neg hp]
      refine ⟨fun p hpeq => absurd hpeq (by simp), fun _ w hw => ?_⟩
      obtain ⟨t', ht', hp'⟩ := (can_move_to_some grid build start).mp hw.2.2.2.1
      rw [hs, Option.some_inj] at ht'
      subst ht'
      exact hp hp'

theorem get_from_with_build_none {grid : Grid} {c : Coordinate} :
    c.get_from_with_build grid none = c.get_from grid := rfl

theorem get_from_with_build_some {grid : Grid} {c : Coordinate} {b : Coordinate → Bool} :
    c.get_from_with_build grid (some b) =
      if b c then some Tile.Block else c.get_from grid := rfl

theorem get_from_with_build_mono {grid : Grid} {b2 b1 : Option (Coordinate → Bool)}
    {c : Coordinate} {t : Tile} (hsub : SubOverlay b2 b1)
    (h : c.get_from_with_build grid b1 = some t) (hnb : t ≠ Tile.Block) :
    c.get_from_with_build grid b2 = some t := by
  have hb1 : blockedBy b1 c = false := by
    cases b1 with
    | none => rfl
    | some f =>
      rw [get_from_with_build_some] at h
      by_cases hf : f c
      · rw [if_pos hf, Option.some_inj] at h
        exact absurd h.symm hnb
      · simpa [blockedBy] using hf
  have hb2 : blockedBy b2 c = false := by
    cases hb : blockedBy b2 c with
    | false => rfl
    | true => rw [hsub c hb] at hb1; cases hb1
  have hgrid : c.get_from grid = some t := by
    cases b1 with
    | none => exact h
    | some f =>
      rw [get_from_with_build_some] at h
      rw [if_neg (by simp [blockedBy] at hb1; simp [hb1])] at h
      exact h
  cases b2 with
  | none => exact hgrid
  | some f =>
    rw [get_from_with_build_some, if_neg (by simp [blockedBy] at hb2; simp [hb2])]
    exact hgrid

theorem can_move_to_mono {grid : Grid} {b2 b1 : Option (Coordinate → Bool)}
    {o : Option Coordinate} (hsub : SubOverlay b2 b1)
    (h : Adjacent.can_move_to grid b1 o = true) :
    Adjacent.can_move_to grid b2 o = true := by
  cases o with
  | none => simpa [Adjacent.can_move_to] using h
  | some c =>
    obtain ⟨t, ht, hp⟩ := (can_move_to_some grid b1 c).mp h
    have hnb : t ≠ Tile.Block := by
      intro hb
      subst hb
      simp [Tile.is_passable] at hp
    exact (can_move_to_some grid b2 c).mpr ⟨t, get_from_with_build_mono hsub ht hnb, hp⟩

theorem toList_overlay_mono {grid : Grid} {b2 b1 : Option (Coordinate → Bool)}
    {c b : Coordinate} {d : Bool} (hsub : SubOverlay b2 b1)
    (h : b ∈ (Adjacent.from_grid_coordinate_with_build grid b1 c d).toList) :
    b ∈ (Adjacent.from_grid_coordinate_with_build grid b2 c d).toList := by
  cases d with
  | false =>
    unfold Adjacent.from_grid_coordinate_with_build at h ⊢
    simpa using h
  | true =>
    unfold Adjacent.from_grid_coordinate_with_build at h ⊢
    rw [mem_toList_iff] at h ⊢
    simp only [if_true] at h ⊢
    rcases h with h | h | h | h | h | h | h | h
    · exact Or.inl h
    · exact Or.inr (Or.inl h)
    · exact Or.inr (Or.inr (Or.inl h))
    · exact Or.inr (Or.inr (Or.inr (Or.inl h)))
    · refine Or.inr (Or.inr (Or.inr (Or.inr (Or.inl ?_))))
      split at h
      · exact absurd h (by simp)
      · rename_i hcond
        rw [if_neg ?_]
        · exact h
        · intro hcond2
          apply hcond
          simp only [Bool.and_eq_true, Bool.not_eq_true'] at hcond2 ⊢
          refine ⟨?_, ?_⟩
          · cases hc1 : Adjacent.can_move_to grid b1
              (Adjacent.from_grid_coordinate grid c true).up with
            | false => rfl
            | true => rw [can_move_to_mono hsub hc1] at hcond2; cases hcond2.1
          · cases hc1 : Adjacent.can_move_to grid b1
              (Adjacent.from_grid_coordinate grid c true).right with
            | false => rfl
            | true => rw [can_move_to_mono hsub hc1] at hcond2; cases hcond2.2
    · refine Or.inr (Or.inr (Or.inr (Or.inr (Or.inr (Or.inl ?_)))))
      split at h
      · exact absurd h (by simp)
      · rename_i hcond
        rw [if_neg ?_]
        · exact h
        · intro hcond2
          apply hcond
          simp only [Bool.and_eq_true, Bool.not_eq_true'] at hcond2 ⊢
          refine ⟨?_, ?_⟩
          · cases hc1 : Adjacent.can_move_to grid b1
              (Adjacent.from_grid_coordinate grid c true).down with
            | false => rfl
            | true => rw [can_move_to_mono hsub hc1] at hcond2; cases hcond2.1
          · cases hc1 : Adjacent.can_move_to grid b1
              (Adjacent.from_grid_coordinate grid c true).right with
            | false => rfl
            | true => rw [can_move_to_mono hsub hc1] at hcond2; cases hcond2.2
    · refine Or.inr (Or.inr (Or.inr (Or.inr (Or.inr (Or.inr (Or.inl ?_))))))
      split at h
      · exact absurd h (by simp)
      · rename_i hcond
        rw [if_neg ?_]
        · exact h
        · intro hcond2
          apply hcond
          simp only [Bool.and_eq_true, Bool.not_eq_true'] at hcond2 ⊢
          refine ⟨?_, ?_⟩
          · cases hc1 : Adjacent.can_move_to grid b1
              (Adjacent.from_grid_coordinate grid c true).down with
            | false => rfl
            | true => rw [can_move_to_mono hsub hc1] at hcond2; cases hcond2.1
          · cases hc1 : Adjacent.can_move_to grid b1
              (Adjacent.from_grid_coordinate grid c true).left with
            | false => rfl
            | true => rw [can_move_to_mono hsub hc1] at hcond2; cases hcond2.2
    · refine Or.inr (Or.inr (Or.inr (Or.inr (Or.inr (Or.inr (Or.inr ?_))))))
      split at h
      · exact absurd h (by simp)
      · rename_i hcond
        rw [if_neg ?_]
        · exact h
        · intro hcond2
          apply hcond
          simp only [Bool.and_eq_true, Bool.not_eq_true'] at hcond2 ⊢
          refine ⟨?_, ?_⟩
          · cases hc1 : Adjacent.can_move_to grid b1
              (Adjacent.from_grid_coordinate grid c true).up with
            | false => rfl
            | true => rw [can_move_to_mono hsub hc1] at hcond2; cases hcond2.1
          · cases hc1 : Adjacent.can_move_to grid b1
              (Adjacent.from_grid_coordinate grid c true).left with
            | false => rfl
            | true => rw [can_move_to_mono hsub hc1] at hcond2; cases hcond2.2

theorem toList_diag_mono {grid : Grid} {build : Option (Coordinate → Bool)}
    {c b : Coordinate} {d : Bool}
    (h : b ∈ (Adjacent.from_grid_coordinate_with_build grid build c false).toList) :
    b ∈ (Adjacent.from_grid_coordinate_with_build grid build c d).toList := by
  cases d with
  | false => exact h
  | true =>
    unfold Adjacent.from_grid_coordinate_with_build at h ⊢
    rw [if_neg (by simp)] at h
    rw [mem_toList_iff] at h ⊢
    simp only [if_true]
    unfold Adjacent.from_grid_coordinate at h
    simp only at h
    rcases h with h | h | h | h | h | h | h | h
    · exact Or.inl (by unfold Adjacent.from_grid_coordinate; simpa using h)
    · exact Or.inr (Or.inl (by unfold Adjacent.from_grid_coordinate; simpa using h))
    · exact Or.inr (Or.inr (Or.inl (by unfold Adjacent.from_grid_coordinate; simpa using h)))
    · exact Or.inr (Or.inr (Or.inr (Or.inl
        (by unfold Adjacent.from_grid_coordinate; simpa using h))))
    all_goals simp at h

theorem target_walk_overlay_mono {grid : Grid} {b2 b1 : Option (Coordinate → Bool)}
    {end_point : Tile} {diagonals : Bool} {start : Coordinate} {w : List Coordinate}
    (hsub : SubOverlay b2 b1) (hnb : end_point ≠ Tile.Block)
    (hw : TargetWalk grid b1 end_point diagonals start w) :
    TargetWalk grid b2 end_point diagonals start w := by
  obtain ⟨hh, hch, hdrop, hst, final, hlast, hlt⟩ := hw
  refine ⟨hh, ?_, ?_, can_move_to_mono hsub hst, final, hlast,
    get_from_with_build_mono hsub hlt hnb⟩
  · exact hch.imp (fun _ _ hab => toList_overlay_mono hsub hab)
  · exact fun c hc => can_move_to_mono hsub (hdrop c hc)

theorem target_walk_diag_mono {grid : Grid} {build : Option (Coordinate → Bool)}
    {end_point : Tile} {start : Coordinate} {w : List Coordinate} {d : Bool}
    (hw : TargetWalk grid build end_point false start w) :
    TargetWalk grid build end_point d start w := by
  obtain ⟨hh, hch, hdrop, hst, final, hlast, hlt⟩ := hw
  exact ⟨hh, hch.imp (fun _ _ hab => toList_diag_mono hab), hdrop, hst, final, hlast, hlt⟩

theorem from_grid_isSome_iff {grid : Grid} {build : Option (Coordinate → Bool)}
    {start : Coordinate} {sd : Option Nat} {end_point : Tile} {diagonals : Bool}
    (hrect : Rect grid) :
    (ShortestPath.from_grid_coordinate_to_tile grid build start sd end_point
      diagonals).isSome = true ↔
      ∃ w, TargetWalk grid build end_point diagonals start w := by
  constructor
  · intro h
    obtain ⟨p, hp⟩ := Option.isSome_iff_exists.mp h
    exact ⟨p.path, ((from_grid_spec hrect).1 p hp).2.1⟩
  · rintro ⟨w, hw⟩
    cases hres : ShortestPath.from_grid_coordinate_to_tile grid build start sd
        end_point diagonals with
    | none => exact absurd hw ((from_grid_spec hrect).2 hres w)
    | some p => rfl

theorem from_grid_isSome_sd {grid : Grid} {build : Option (Coordinate → Bool)}
    {start : Coordinate} {end_point : Tile} {diagonals : Bool} (sd1 sd2 : Option Nat) :
    (ShortestPath.from_grid_coordinate_to_tile grid build start sd1 end_point
      diagonals).isSome =
    (ShortestPath.from_grid_coordinate_to_tile grid build start sd2 end_point
      diagonals).isSome := by
  unfold ShortestPath.from_grid_coordinate_to_tile
  cases start.get_from_with_build grid build with
  | none => rfl
  | some t =>
    dsimp only
    split
    · cases (bfs_loop grid build end_point diagonals (FUEL grid) [(start, [start])] []).join
        with
      | none => rfl
      | some p => rfl
    · rfl

theorem return_shorter_mem (a b : ShortestPath) :
    ShortestPath.return_shorter a b = a ∨ ShortestPath.return_shorter a b = b := by
  unfold ShortestPath.return_shorter
  split
  · exact Or.inr rfl
  · exact Or.inl rfl

theorem return_shorter_le_left (a b : ShortestPath) :
    (ShortestPath.return_shorter a b).len ≤ a.len := by
  unfold ShortestPath.return_shorter
  split
  · omega
  · omega

theorem return_shorter_le_right (a b : ShortestPath) :
    (ShortestPath.return_shorter a b).len ≤ b.len := by
  unfold ShortestPath.return_shorter
  split
  · omega
  · omega

theorem foldl_return_shorter_mem (others : List ShortestPath) :
    ∀ first, others.foldl ShortestPath.return_shorter first ∈ first :: others := by
  induction others with
  | nil => intro first; simp
  | cons a t ih =>
    intro first
    rw [List.foldl_cons]
    rcases List.mem_cons.mp (ih (ShortestPath.return_shorter first a)) with heq | hmem
    · rcases return_shorter_mem first a with h | h
      · rw [heq, h]
        exact List.mem_cons_self _ _
      · rw [heq, h]
        exact List.mem_cons_of_mem _ (List.mem_cons_self _ _)
    · exact List.mem_cons_of_mem _ (List.mem_cons_of_mem _ hmem)

theorem foldl_return_shorter_le (others : List ShortestPath) :
    ∀ first, ∀ r ∈ first :: others,
      (others.foldl ShortestPath.return_shorter first).len ≤ r.len := by
  induction others with
  | nil =>
    intro first r hr
    rcases List.mem_cons.mp hr with rfl | h
    · exact Nat.le_refl _
    · exact absurd h (List.not_mem_nil _)
  | cons a t ih =>
    intro first r hr
    rw [List.foldl_cons]
    rcases List.mem_cons.mp hr with rfl | hr'
    · exact Nat.le_trans
        (ih (ShortestPath.return_shorter r a) _ (List.mem_cons_self _ _))
        (return_shorter_le_left r a)
    · rcases List.mem_cons.mp hr' with rfl | hr''
      · exact Nat.le_trans
          (ih (ShortestPath.return_shorter first r) _ (List.mem_cons_self _ _))
          (return_shorter_le_right first r)
      · exact ih (ShortestPath.return_shorter first a) r (List.mem_cons_of_mem _ hr'')

theorem from_any_isSome_iff {grid : Grid} {build : Option (Coordinate → Bool)}
    {pts : List (Coordinate × Nat)} {end_tile : Tile} {diagonals : Bool} :
    (ShortestPath.from_any_grid_coordinate_to_tile grid build pts end_tile
      diagonals).isSome = true ↔
      ∃ s ∈ pts, (ShortestPath.from_grid_coordinate_to_tile grid build s.1 (some s.2)
        end_tile diagonals).isSome = true := by
  unfold ShortestPath.from_any_grid_coordinate_to_tile
  cases hfm : pts.filterMap (fun s => ShortestPath.from_grid_coordinate_to_tile grid build
      s.1 (some s.2) end_tile diagonals) with
  | nil =>
    simp only [Option.isSome_none]
    constructor
    · intro h
      cases h
    · rintro ⟨s, hs, hsome⟩
      obtain ⟨p, hp⟩ := Option.isSome_iff_exists.mp hsome
      have : p ∈ pts.filterMap (fun s => ShortestPath.from_grid_coordinate_to_tile grid
          build s.1 (some s.2) end_tile diagonals) :=
        List.mem_filterMap.mpr ⟨s, hs, hp⟩
      rw [hfm] at this
      exact absurd this (List.not_mem_nil _)
  | cons first others =>
    simp only [Option.isSome_some, true_iff]
    have : first ∈ pts.filterMap (fun s => ShortestPath.from_grid_coordinate_to_tile grid
        build s.1 (some s.2) end_tile diagonals) := by
      rw [hfm]
      exact List.mem_cons_self _ _
    obtain ⟨s, hs, hp⟩ := List.mem_filterMap.mp this
    exact ⟨s, hs, by rw [hp]; rfl⟩

theorem from_any_some_spec {grid : Grid} {build : Option (Coordinate → Bool)}
    {pts : List (Coordinate × Nat)} {end_tile : Tile} {diagonals : Bool}
    {p : ShortestPath}
    (h : ShortestPath.from_any_grid_coordinate_to_tile grid build pts end_tile diagonals
      = some p) :
    (∃ s ∈ pts, ShortestPath.from_grid_coordinate_to_tile grid build s.1 (some s.2)
      end_tile diagonals = some p) ∧
    (∀ s ∈ pts, ∀ q, ShortestPath.from_grid_coordinate_to_tile grid build s.1 (some s.2)
      end_tile diagonals = some q → p.len ≤ q.len) := by
  unfold ShortestPath.from_any_grid_coordinate_to_tile at h
  cases hfm : pts.filterMap (fun s => ShortestPath.from_grid_coordinate_to_tile grid build
      s.1 (some s.2) end_tile diagonals) with
  | nil =>
    rw [hfm] at h
    cases h
  | cons first others =>
    rw [hfm] at h
    simp only [Option.some_inj] at h
    constructor
    · have hmem := foldl_return_shorter_mem others first
      rw [h, ← hfm] at hmem
      exact List.mem_filterMap.mp hmem
    · intro s hs q hq
      have hqmem : q ∈ first :: others := by
        rw [← hfm]
        exact List.mem_filterMap.mpr ⟨s, hs, hq⟩
      have := foldl_return_shorter_le others first q hqmem
      rw [h] at this
      exact this

theorem is_valid_iff {ts : Tileset} {blocks : Coordinate → Bool} :
    Build.is_valid ts blocks = true ↔
      ∀ region ∈ ts.entrances_by_region, ∃ e ∈ region,
        (ShortestPath.from_grid_coordinate_to_tile ts.grid (some blocks) e.1 none
          Tile.Core false).isSome = true := by
  unfold Build.is_valid
  rw [List.all_eq_true]
  constructor
  · intro h region hr
    have := h region hr
    rw [List.any_eq_true] at this
    obtain ⟨e, he, hsome⟩ := this
    exact ⟨e, he, by simpa using hsome⟩
  · intro h region hr
    rw [List.any_eq_true]
    obtain ⟨e, he, hsome⟩ := h region hr
    exact ⟨e, he, by simpa using hsome⟩

theorem is_valid_mono {ts : Tileset} {blocks1 blocks2 : Coordinate → Bool}
    (hrect : Rect ts.grid) (hsub : ∀ c, blocks2 c = true → blocks1 c = true)
    (hv : Build.is_valid ts blocks1 = true) : Build.is_valid ts blocks2 = true := by
  rw [is_valid_iff] at hv ⊢
  intro region hr
  obtain ⟨e, he, hsome⟩ := hv region hr
  refine ⟨e, he, ?_⟩
  rw [from_grid_isSome_iff hrect] at hsome ⊢
  obtain ⟨w, hw⟩ := hsome
  have hsub' : SubOverlay (some blocks2) (some blocks1) := by
    intro c h
    simp only [blockedBy] at h ⊢
    exact hsub c h
  exact ⟨w, target_walk_overlay_mono hsub' (by decide) hw⟩

theorem is_valid_from_any_isSome {ts : Tileset} {blocks : Coordinate → Bool} {d : Bool}
    (hrect : Rect ts.grid) (hv : Build.is_valid ts blocks = true)
    {region : List (Coordinate × Nat)} (hr : region ∈ ts.entrances_by_region) :
    (ShortestPath.from_any_grid_coordinate_to_tile ts.grid (some blocks) region
      Tile.Core d).isSome = true := by
  rw [from_any_isSome_iff]
  obtain ⟨e, he, hsome⟩ := is_valid_iff.mp hv region hr
  refine ⟨e, he, ?_⟩
  rw [from_grid_isSome_iff hrect] at hsome
  rw [from_grid_isSome_iff hrect]
  obtain ⟨w, hw⟩ := hsome
  exact ⟨w, target_walk_diag_mono hw⟩

/-- C2: on a rectangular grid, `ShortestPath::from_grid_coordinate_to_tile`
returns, when present, a path that records the given start distance, is a
walk of the overlay-aware search graph (start and all cells before the
last passable, steps through `Adjacent::from_grid_coordinate_with_build`
including the corner rule, last cell reading as the target kind), and
whose cell count is minimal among all such walks; an absent result means
no such walk exists. -/
theorem c2_bfs_optimal (grid : Grid) (build : Option (Coordinate → Bool))
    (start : Coordinate) (sd : Option Nat) (end_point : Tile) (diagonals : Bool)
    (hrect : Rect grid) :
    (∀ p, ShortestPath.from_grid_coordinate_to_tile grid build start sd end_point diagonals
        = some p →
      p.start_distance = sd ∧ TargetWalk grid build end_point diagonals start p.path ∧
      ∀ w, TargetWalk grid build end_point diagonals start w → p.path.length ≤ w.length) ∧
    (ShortestPath.from_grid_coordinate_to_tile grid build start sd end_point diagonals
        = none →
      ∀ w, ¬TargetWalk grid build end_point diagonals start w) :=
  from_grid_spec hrect

theorem c2_bfs_optimal_witness :
    Rect [[Tile.Empty, Tile.Core]] ∧
    ((∀ p, ShortestPath.from_grid_coordinate_to_tile [[Tile.Empty, Tile.Core]] none
        ⟨0, 0⟩ none Tile.Core false = some p →
      p.start_distance = none ∧
      TargetWalk [[Tile.Empty, Tile.Core]] none Tile.Core false ⟨0, 0⟩ p.path ∧
      ∀ w, TargetWalk [[Tile.Empty, Tile.Core]] none Tile.Core false ⟨0, 0⟩ w →
        p.path.length ≤ w.length) ∧
    (ShortestPath.from_grid_coordinate_to_tile [[Tile.Empty, Tile.Core]] none
        ⟨0, 0⟩ none Tile.Core false = none →
      ∀ w, ¬TargetWalk [[Tile.Empty, Tile.Core]] none Tile.Core false ⟨0, 0⟩ w)) :=
  ⟨by decide,
    c2_bfs_optimal [[Tile.Empty, Tile.Core]] none ⟨0, 0⟩ none Tile.Core false (by decide)⟩

/-- C6: for every tileset with a rectangular grid, every block overlay
(hence in particular the final `Build` of either strategy), every
diagonals flag and every region index, a shortest path computed by
`ShortestPath::from_entrances_to_any_core` under the overlay is at least
as long (by `len`) as the one computed under the empty overlay: adding
blocks never shortens a region's shortest path. -/
theorem c6_blocks_never_shorten (ts : Tileset) (B : Finset Coordinate) (d : Bool)
    (i : Nat) (p : ShortestPath) (hrect : Rect ts.grid)
    (hp : (ShortestPath.from_entrances_to_any_core ts (some (buildContains B)) d).get? i
      = some (some p)) :
    ∃ q, (ShortestPath.from_entrances_to_any_core ts none d).get? i = some (some q) ∧
      q.len ≤ p.len := by
  unfold ShortestPath.from_entrances_to_any_core at hp ⊢
  rw [List.get?_map] at hp ⊢
  cases hreg : ts.entrances_by_region.get? i with
  | none =>
    rw [hreg] at hp
    simp at hp
  | some region =>
    rw [hreg] at hp
    simp only [Option.map_some', Option.some_inj] at hp
    obtain ⟨⟨s, hs, hsp⟩, -⟩ := from_any_some_spec hp
    have hsub : SubOverlay none (some (buildContains B)) := by
      intro c h
      simp [blockedBy] at h
    obtain ⟨hsd, hwalk, -⟩ := (from_grid_spec hrect).1 p hsp
    have hwalk0 : TargetWalk ts.grid none Tile.Core d s.1 p.path :=
      target_walk_overlay_mono hsub (by decide) hwalk
    have hsome0 : (ShortestPath.from_grid_coordinate_to_tile ts.grid none s.1 (some s.2)
        Tile.Core d).isSome = true :=
      (from_grid_isSome_iff hrect).mpr ⟨p.path, hwalk0⟩
    obtain ⟨qs, hqs⟩ := Option.isSome_iff_exists.mp hsome0
    obtain ⟨hqsd, -, hqmin⟩ := (from_grid_spec hrect).1 qs hqs
    have hq_any : (ShortestPath.from_any_grid_coordinate_to_tile ts.grid none region
        Tile.Core d).isSome = true :=
      from_any_isSome_iff.mpr ⟨s, hs, by rw [hqs]; rfl⟩
    obtain ⟨q, hq⟩ := Option.isSome_iff_exists.mp hq_any
    refine ⟨q, by simp only [Option.map_some', Option.some_inj]; exact hq, ?_⟩
    have hle1 : q.len ≤ qs.len := (from_any_some_spec hq).2 s hs qs hqs
    have hle2 : qs.path.length ≤ p.path.length := hqmin p.path hwalk0
    have hplen : p.len = p.path.length + s.2 := by
      unfold ShortestPath.len
      rw [hsd]
      rfl
    have hqslen : qs.len = qs.path.length + s.2 := by
      unfold ShortestPath.len
      rw [hqsd]
      rfl
    omega

theorem c6_blocks_never_shorten_witness :
    Rect pruneDemoTileset.grid ∧
    ((ShortestPath.from_entrances_to_any_core pruneDemoTileset
        (some (buildContains ∅)) false).get? 0 =
      some (some ⟨[⟨1, 1⟩, ⟨2, 1⟩, ⟨3, 1⟩], some 0⟩)) ∧
    (∃ q, (ShortestPath.from_entrances_to_any_core pruneDemoTileset none false).get? 0
        = some (some q) ∧
      q.len ≤ (⟨[⟨1, 1⟩, ⟨2, 1⟩, ⟨3, 1⟩], some 0⟩ : ShortestPath).len) :=
  ⟨by decide, by decide,
    c6_blocks_never_shorten pruneDemoTileset ∅ false 0
      ⟨[⟨1, 1⟩, ⟨2, 1⟩, ⟨3, 1⟩], some 0⟩ (by decide) (by decide)⟩

theorem try_remove_coord_subset (ts : Tileset) (blocks : Finset Coordinate)
    (exp : List (Option ShortestPath)) (coord : Coordinate) (d : Bool) :
    (Build.try_remove_coord ts blocks exp coord d).1 ⊆ blocks := by
  unfold Build.try_remove_coord
  dsimp only
  split
  · split
    · exact Finset.Subset.refl _
    · exact Finset.erase_subset _ _
  · exact Finset.Subset.refl _

theorem prune_visit_subset (ts : Tileset) (coord : Coordinate) (d : Bool)
    (s : PruneState) (a : Coordinate) :
    (prune_visit ts coord d s a).blocks ⊆ s.blocks := by
  unfold prune_visit
  split
  · exact try_remove_coord_subset ts s.blocks _ coord d
  · exact Finset.Subset.refl _

theorem foldl_prune_visit_subset (ts : Tileset) (coord : Coordinate) (d : Bool)
    (l : List Coordinate) :
    ∀ s : PruneState, (l.foldl (prune_visit ts coord d) s).blocks ⊆ s.blocks := by
  induction l with
  | nil => intro s; exact Finset.Subset.refl _
  | cons a t ih =>
    intro s
    exact (ih _).trans (prune_visit_subset ts coord d s a)

theorem prune_loop_subset (ts : Tileset) (coord : Coordinate) (d : Bool) :
    ∀ fuel (s : PruneState), prune_loop ts coord d fuel s ⊆ s.blocks := by
  intro fuel
  induction fuel with
  | zero => intro s; exact Finset.Subset.refl _
  | succ fuel ih =>
    intro s
    unfold prune_loop
    cases hq : s.queue with
    | nil => exact Finset.Subset.refl _
    | cons adjacent rest =>
      refine (ih _).trans ?_
      exact foldl_prune_visit_subset ts coord d adjacent.toList { s with queue := rest }

theorem try_remove_adjacent_to_subset (ts : Tileset) (blocks : Finset Coordinate)
    (coord : Coordinate) (d : Bool) (fuel : Nat) :
    Build.try_remove_adjacent_to ts blocks coord d fuel ⊆ blocks := by
  unfold Build.try_remove_adjacent_to
  exact prune_loop_subset ts coord d fuel _

theorem buildContains_empty : buildContains (∅ : Finset Coordinate) = fun _ => false := by
  funext c
  simp [buildContains]

theorem buildContains_insert (blocks : Finset Coordinate) (coord : Coordinate) :
    buildContains (insert coord blocks) =
      fun c => buildContains blocks c || decide (c = coord) := by
  funext c
  unfold buildContains
  by_cases h1 : c = coord <;> by_cases h2 : c ∈ blocks <;> simp [h1, h2]

theorem find_valid_spec {ts : Tileset} {blocks : Finset Coordinate}
    {path : List Coordinate} {coord : Coordinate}
    (h : Build.find_valid_block_placement ts blocks path = some coord) :
    coord.get_from ts.grid = some Tile.Empty ∧
    Build.is_valid ts (fun c => buildContains blocks c || decide (c = coord)) = true := by
  unfold Build.find_valid_block_placement at h
  have := List.find?_some h
  simpa using this

theorem is_valid_insert_prune {ts : Tileset} {blocks : Finset Coordinate}
    {coord : Coordinate} {d : Bool} {pfuel : Nat} (hrect : Rect ts.grid)
    (hv : Build.is_valid ts (fun c => buildContains blocks c || decide (c = coord)) = true) :
    Build.is_valid ts
      (buildContains (Build.try_remove_adjacent_to ts (insert coord blocks) coord d pfuel))
      = true := by
  have hins : Build.is_valid ts (buildContains (insert coord blocks)) = true := by
    rw [buildContains_insert]
    exact hv
  refine is_valid_mono hrect ?_ hins
  intro c hc
  unfold buildContains at hc ⊢
  simp only [decide_eq_true_eq] at hc ⊢
  exact try_remove_adjacent_to_subset ts (insert coord blocks) coord d pfuel hc

theorem insert_prune_card (ts : Tileset) (blocks : Finset Coordinate)
    (coord : Coordinate) (d : Bool) (pfuel : Nat) :
    (Build.try_remove_adjacent_to ts (insert coord blocks) coord d pfuel).card ≤
      blocks.card + 1 :=
  Nat.le_trans
    (Finset.card_le_card (try_remove_adjacent_to_subset ts (insert coord blocks) coord d pfuel))
    (Finset.card_insert_le coord blocks)

theorem rr_loop_valid {ts : Tileset} {d : Bool} {maxb : Option Nat} {pf : Nat}
    (hrect : Rect ts.grid) :
    ∀ fuel blocks ce pl, Build.is_valid ts (buildContains blocks) = true →
      (∀ b, rr_loop ts d maxb pf fuel blocks ce pl = .finished b →
        Build.is_valid ts (buildContains b) = true) ∧
      rr_loop ts d maxb pf fuel blocks ce pl ≠ .pathPanic := by
  intro fuel
  induction fuel with
  | zero =>
    intro blocks ce pl hv
    refine ⟨?_, ?_⟩
    · intro b hb
      unfold rr_loop at hb
      injection hb with h
      rw [← h]
      exact hv
    · intro h
      unfold rr_loop at h
      cases h
  | succ fuel ih =>
    intro blocks ce pl hv
    unfold rr_loop
    by_cases hcap : cap_allows maxb blocks.card = true
    · rw [if_pos hcap]
      split
      · refine ⟨?_, ?_⟩
        · intro b hb
          injection hb with h
          rw [← h]
          exact hv
        · intro h
          cases h
      · rename_i step entrance placements' hstep
        split
        · refine ⟨?_, ?_⟩
          · intro b hb
            cases hb
          · intro h
            cases h
        · rename_i entrances harr
          have hregmem : entrances ∈ ts.entrances_by_region := List.get?_mem harr
          have hsome := is_valid_from_any_isSome (d := d) hrect hv hregmem
          split
          · rename_i hany
            rw [hany] at hsome
            cases hsome
          · rename_i sp hany
            split
            · rename_i coord hfind
              exact ih _ entrance (placements' + 1)
                (is_valid_insert_prune hrect (find_valid_spec hfind).2)
            · rename_i hfind
              exact ih blocks entrance placements' hv
    · rw [if_neg hcap]
      refine ⟨?_, ?_⟩
      · intro b hb
        injection hb with h
        rw [← h]
        exact hv
      · intro h
        cases h

theorem rr_loop_cap {ts : Tileset} {d : Bool} {pf : Nat} {m : Nat} :
    ∀ fuel blocks ce pl b, blocks.card ≤ m →
      rr_loop ts d (some m) pf fuel blocks ce pl = .finished b → b.card ≤ m := by
  intro fuel
  induction fuel with
  | zero =>
    intro blocks ce pl b hc hb
    unfold rr_loop at hb
    injection hb with h
    rw [← h]
    exact hc
  | succ fuel ih =>
    intro blocks ce pl b hc hb
    unfold rr_loop at hb
    by_cases hcap : cap_allows (some m) blocks.card = true
    · rw [if_pos hcap] at hb
      have hlt : blocks.card < m := by simpa [cap_allows] using hcap
      split at hb
      · injection hb with h
        rw [← h]
        exact hc
      · split at hb
        · cases hb
        · split at hb
          · cases hb
          · split at hb
            · rename_i coord hfind
              refine ih _ _ _ b ?_ hb
              exact Nat.le_trans (insert_prune_card ts blocks coord d pf) hlt
            · exact ih _ _ _ b hc hb
    · rw [if_neg hcap] at hb
      injection hb with h
      rw [← h]
      exact hc

theorem valid_from_any_none_isSome {ts : Tileset} {blocks : Coordinate → Bool} {d : Bool}
    (hrect : Rect ts.grid) (hv : Build.is_valid ts blocks = true)
    {region : List (Coordinate × Nat)} (hr : region ∈ ts.entrances_by_region) :
    (ShortestPath.from_any_grid_coordinate_to_tile ts.grid none region Tile.Core d).isSome
      = true := by
  rw [from_any_isSome_iff]
  obtain ⟨e, he, hsome⟩ := is_valid_iff.mp hv region hr
  refine ⟨e, he, ?_⟩
  rw [from_grid_isSome_iff hrect] at hsome ⊢
  obtain ⟨w, hw⟩ := hsome
  have hsub : SubOverlay none (some blocks) := by
    intro c h
    simp [blockedBy] at h
  exact ⟨w, target_walk_diag_mono (target_walk_overlay_mono hsub (by decide) hw)⟩

theorem collect_region_paths_isSome {l : List (Option ShortestPath)}
    (h : ∀ x ∈ l, x.isSome = true) : ∀ i, (collect_region_paths l i).isSome = true := by
  induction l with
  | nil => intro i; rfl
  | cons a t ih =>
    intro i
    cases a with
    | none =>
      have := h none (List.mem_cons_self _ _)
      cases this
    | some p =>
      unfold collect_region_paths
      have hrec := ih (fun x hx => h x (List.mem_cons_of_mem _ hx)) (i + 1)
      cases hcol : collect_region_paths t (i + 1) with
      | none => rw [hcol] at hrec; cases hrec
      | some l' => rfl

theorem region_shortest_path_not_some_none {ts : Tileset} {blocks : Finset Coordinate}
    {d : Bool} {ri : Nat} (hrect : Rect ts.grid)
    (hv : Build.is_valid ts (buildContains blocks) = true) :
    region_shortest_path ts blocks d ri ≠ some none := by
  unfold region_shortest_path
  cases harr : ts.entrances_by_region.get? ri with
  | none =>
    intro h
    cases h
  | some entrances =>
    intro h
    simp only [Option.some_inj] at h
    have := is_valid_from_any_isSome (d := d) hrect hv (List.get?_mem harr)
    rw [h] at this
    cases this

theorem prio_loop_valid {ts : Tileset} {d : Bool} {maxb : Option Nat} {pf : Nat}
    (hrect : Rect ts.grid) :
    ∀ fuel blocks queue, Build.is_valid ts (buildContains blocks) = true →
      (∀ b, prio_loop ts d maxb pf fuel blocks queue = .finished b →
        Build.is_valid ts (buildContains b) = true) ∧
      prio_loop ts d maxb pf fuel blocks queue ≠ .pathPanic := by
  intro fuel
  induction fuel with
  | zero =>
    intro blocks queue hv
    refine ⟨?_, ?_⟩
    · intro b hb
      unfold prio_loop at hb
      injection hb with h
      rw [← h]
      exact hv
    · intro h
      unfold prio_loop at h
      cases h
  | succ fuel ih =>
    intro blocks queue hv
    unfold prio_loop
    cases queue with
    | nil =>
      refine ⟨?_, ?_⟩
      · intro b hb
        injection hb with h
        rw [← h]
        exact hv
      · intro h
        cases h
    | cons head rest =>
      obtain ⟨sp, ri⟩ := head
      dsimp only
      by_cases hcap : cap_reached maxb blocks.card = true
      · rw [if_pos hcap]
        refine ⟨?_, ?_⟩
        · intro b hb
          injection hb with h
          rw [← h]
          exact hv
        · intro h
          cases h
      · rw [if_neg hcap]
        split
        · split
          · refine ⟨?_, ?_⟩
            · intro b hb
              cases hb
            · intro h
              cases h
          · rename_i hrsp
            exact absurd hrsp (region_shortest_path_not_some_none hrect hv)
          · rename_i sp' hrsp
            exact ih blocks (bt_insert sp' ri rest) hv
        · split
          · rename_i coord hfind
            have hv' : Build.is_valid ts (buildContains
                (Build.try_remove_adjacent_to ts (insert coord blocks) coord d pf)) = true :=
              is_valid_insert_prune hrect (find_valid_spec hfind).2
            split
            · refine ⟨?_, ?_⟩
              · intro b hb
                cases hb
              · intro h
                cases h
            · rename_i hrsp
              exact absurd hrsp (region_shortest_path_not_some_none hrect hv')
            · rename_i sp' hrsp
              exact ih _ (bt_insert sp' ri rest) hv'
          · exact ih blocks rest hv

theorem prio_loop_cap {ts : Tileset} {d : Bool} {pf : Nat} {m : Nat} :
    ∀ fuel blocks queue b, blocks.card ≤ m →
      prio_loop ts d (some m) pf fuel blocks queue = .finished b → b.card ≤ m := by
  intro fuel
  induction fuel with
  | zero =>
    intro blocks queue b hc hb
    unfold prio_loop at hb
    injection hb with h
    rw [← h]
    exact hc
  | succ fuel ih =>
    intro blocks queue b hc hb
    unfold prio_loop at hb
    cases queue with
    | nil =>
      injection hb with h
      rw [← h]
      exact hc
    | cons head rest =>
      obtain ⟨sp, ri⟩ := head
      dsimp only at hb
      by_cases hcap : cap_reached (some m) blocks.card = true
      · rw [if_pos hcap] at hb
        injection hb with h
        rw [← h]
        exact hc
      · rw [if_neg hcap] at hb
        have hlt : blocks.card < m := by
          simp only [cap_reached, decide_eq_true_eq] at hcap
          omega
        split at hb
        · split at hb
          · cases hb
          · cases hb
          · exact ih _ _ b hc hb
        · split at hb
          · rename_i coord hfind
            split at hb
            · cases hb
            · cases hb
            · refine ih _ _ b ?_ hb
              exact Nat.le_trans (insert_prune_card ts blocks coord d pf) hlt
          · exact ih _ _ b hc hb

/-- C3, counterexample: two `ShortestPath` values with equal `len` but
different path contents compare as `Equal` under the source's `Ord`, even
though they are structurally different, refuting the claimed content
tie-break. -/
theorem c3_equal_len_different_paths_compare_equal :
    ShortestPath.cmp ⟨[⟨0, 0⟩], none⟩ ⟨[⟨1, 1⟩], none⟩ = Ordering.eq ∧
    (⟨[⟨0, 0⟩], none⟩ : ShortestPath) ≠ (⟨[⟨1, 1⟩], none⟩ : ShortestPath) := by
  decide

/-- C3, amended: `Ord::cmp` on `ShortestPath` orders by `len` alone; it
returns `Equal` exactly when the two `len`s agree, with no tie-break on the
path contents. -/
theorem c3_cmp_is_len_comparison (a b : ShortestPath) :
    ShortestPath.cmp a b = compare a.len b.len ∧
    (ShortestPath.cmp a b = Ordering.eq ↔ a.len = b.len) := by
  refine ⟨rfl, ?_⟩
  unfold ShortestPath.cmp
  exact Nat.compare_eq_eq

/-- C5: with diagonals enabled, each diagonal slot of
`Adjacent::from_grid_coordinate_with_build` is `None` whenever neither of
its two flanking orthogonal neighbors can be moved onto (absent or
non-passable under the overlay-aware read), so a BFS step along such a
diagonal is never offered. -/
theorem c5_corner_rule_suppresses_diagonals (grid : Grid)
    (build : Option (Coordinate → Bool)) (coord : Coordinate) :
    (Adjacent.can_move_to grid build (Adjacent.from_grid_coordinate grid coord true).up = false →
      Adjacent.can_move_to grid build (Adjacent.from_grid_coordinate grid coord true).right = false →
      (Adjacent.from_grid_coordinate_with_build grid build coord true).up_right = none) ∧
    (Adjacent.can_move_to grid build (Adjacent.from_grid_coordinate grid coord true).down = false →
      Adjacent.can_move_to grid build (Adjacent.from_grid_coordinate grid coord true).right = false →
      (Adjacent.from_grid_coordinate_with_build grid build coord true).down_right = none) ∧
    (Adjacent.can_move_to grid build (Adjacent.from_grid_coordinate grid coord true).down = false →
      Adjacent.can_move_to grid build (Adjacent.from_grid_coordinate grid coord true).left = false →
      (Adjacent.from_grid_coordinate_with_build grid build coord true).down_left = none) ∧
    (Adjacent.can_move_to grid build (Adjacent.from_grid_coordinate grid coord true).up = false →
      Adjacent.can_move_to grid build (Adjacent.from_grid_coordinate grid coord true).left = false →
      (Adjacent.from_grid_coordinate_with_build grid build coord true).up_left = none) := by
  refine ⟨?_, ?_, ?_, ?_⟩ <;>
    · intro h1 h2
      simp [Adjacent.from_grid_coordinate_with_build, h1, h2]

/-- C8, counterexample: `Coordinate::set` at a row index past the grid
(`y = 5` on a one-row grid) silently leaves the grid unchanged instead of
panicking (`some` is a normal return; the modelled panic is `none`). -/
theorem c8_set_row_out_of_bounds_returns_unchanged :
    Coordinate.set ⟨0, 5⟩ [[Tile.Empty]] Tile.Block = some [[Tile.Empty]] := by
  decide

/-- C8, amended: `Coordinate::set` leaves the grid unchanged without
panicking when `y` is past the rows (`get_mut` returns `None` and the write
is skipped); it panics (modelled `none`) only when `y` is in bounds and `x`
is past that row; in bounds it writes the tile at `grid[y][x]`. -/
theorem c8_set_semantics (grid : Grid) (c : Coordinate) (t : Tile) :
    (grid.length ≤ c.y → Coordinate.set c grid t = some grid) ∧
    (c.y < grid.length → rowLen grid c.y ≤ c.x → Coordinate.set c grid t = none) ∧
    (c.y < grid.length → c.x < rowLen grid c.y →
      ∃ row, grid.get? c.y = some row ∧
        Coordinate.set c grid t = some (grid.set c.y (row.set c.x t))) := by
  refine ⟨?_, ?_, ?_⟩
  · intro h
    unfold Coordinate.set
    rw [List.get?_eq_none.mpr h]
  · intro hy hx
    unfold rowLen at hx
    unfold Coordinate.set
    cases hrow : grid.get? c.y with
    | none => exact absurd (List.get?_eq_none.mp hrow) (Nat.not_le.mpr hy)
    | some row =>
      rw [hrow] at hx
      dsimp only at hx ⊢
      rw [if_neg (Nat.not_lt.mpr hx)]
  · intro hy hx
    unfold rowLen at hx
    unfold Coordinate.set
    cases hrow : grid.get? c.y with
    | none => exact absurd (List.get?_eq_none.mp hrow) (Nat.not_le.mpr hy)
    | some row =>
      rw [hrow] at hx
      dsimp only at hx
      exact ⟨row, rfl, by dsimp only; rw [if_pos hx]⟩


/-- C1: on a tileset with a rectangular grid whose spawn regions all reach
a Core under the empty build, validity (`Build::is_valid`: every spawn
region has an entrance reaching some Core with diagonals disabled) holds
after every committed block placement — inserting a coordinate found by
`Build::find_valid_block_placement` into a valid build and running the
adjacency pruning pass keeps the build valid — and holds of the final
build of both `Build::from_entrances_to_any_core` and
`Build::from_entrances_to_any_core_with_priority`, for every diagonals
flag, block cap and fuel. -/
theorem c1_validity_preserved (ts : Tileset) (hrect : Rect ts.grid)
    (hinit : Build.is_valid ts (buildContains (∅ : Finset Coordinate)) = true) :
    (∀ blocks path coord d pf, Build.is_valid ts (buildContains blocks) = true →
      Build.find_valid_block_placement ts blocks path = some coord →
      Build.is_valid ts (buildContains
        (Build.try_remove_adjacent_to ts (insert coord blocks) coord d pf)) = true) ∧
    (∀ d maxb fuel pf b,
      Build.from_entrances_to_any_core ts d maxb fuel pf = RunResult.finished b →
      Build.is_valid ts (buildContains b) = true) ∧
    (∀ d maxb fuel pf b,
      Build.from_entrances_to_any_core_with_priority ts d maxb fuel pf
        = RunResult.finished b →
      Build.is_valid ts (buildContains b) = true) := by
  refine ⟨?_, ?_, ?_⟩
  · intro blocks path coord d pf hv hfind
    exact is_valid_insert_prune hrect (find_valid_spec hfind).2
  · intro d maxb fuel pf b hb
    unfold Build.from_entrances_to_any_core at hb
    exact (rr_loop_valid hrect fuel ∅ 0 1 hinit).1 b hb
  · intro d maxb fuel pf b hb
    unfold Build.from_entrances_to_any_core_with_priority at hb
    cases hcol : collect_region_paths
        (ShortestPath.from_entrances_to_any_core ts none d) 0 with
    | none =>
      rw [hcol] at hb
      dsimp only at hb
      cases hb
    | some entries =>
      rw [hcol] at hb
      dsimp only at hb
      exact (prio_loop_valid hrect fuel ∅ _ hinit).1 b hb

theorem c1_validity_preserved_witness :
    Rect pruneDemoTileset.grid ∧
    Build.is_valid pruneDemoTileset (buildContains (∅ : Finset Coordinate)) = true ∧
    ((∀ blocks path coord d pf,
      Build.is_valid pruneDemoTileset (buildContains blocks) = true →
      Build.find_valid_block_placement pruneDemoTileset blocks path = some coord →
      Build.is_valid pruneDemoTileset (buildContains
        (Build.try_remove_adjacent_to pruneDemoTileset (insert coord blocks) coord d pf))
        = true) ∧
    (∀ d maxb fuel pf b,
      Build.from_entrances_to_any_core pruneDemoTileset d maxb fuel pf
        = RunResult.finished b →
      Build.is_valid pruneDemoTileset (buildContains b) = true) ∧
    (∀ d maxb fuel pf b,
      Build.from_entrances_to_any_core_with_priority pruneDemoTileset d maxb fuel pf
        = RunResult.finished b →
      Build.is_valid pruneDemoTileset (buildContains b) = true)) :=
  ⟨by decide, by decide, c1_validity_preserved pruneDemoTileset (by decide) (by decide)⟩

/-- C7: with `max_blocks = some N`, the final build returned by either
`Build::from_entrances_to_any_core` or
`Build::from_entrances_to_any_core_with_priority` contains at most `N`
blocks, for every tileset, diagonals flag and fuel. -/
theorem c7_block_cap (ts : Tileset) (d : Bool) (N : Nat) (fuel pf : Nat)
    (b : Finset Coordinate) :
    (Build.from_entrances_to_any_core ts d (some N) fuel pf = RunResult.finished b →
      b.card ≤ N) ∧
    (Build.from_entrances_to_any_core_with_priority ts d (some N) fuel pf
        = RunResult.finished b →
      b.card ≤ N) := by
  refine ⟨?_, ?_⟩
  · intro hb
    unfold Build.from_entrances_to_any_core at hb
    exact rr_loop_cap fuel ∅ 0 1 b (by simp) hb
  · intro hb
    unfold Build.from_entrances_to_any_core_with_priority at hb
    cases hcol : collect_region_paths
        (ShortestPath.from_entrances_to_any_core ts none d) 0 with
    | none =>
      rw [hcol] at hb
      dsimp only at hb
      cases hb
    | some entries =>
      rw [hcol] at hb
      dsimp only at hb
      exact prio_loop_cap fuel ∅ _ b (by simp) hb

/-- C10: on a tileset with a rectangular grid whose spawn regions all
reach a Core under the empty build, the `expect(VALID_BUILD)` panic is
unreachable: neither `Build::from_entrances_to_any_core` nor
`Build::from_entrances_to_any_core_with_priority` ever returns the
`pathPanic` outcome, for any diagonals flag, block cap and fuel; every
shortest-path recomputation performed during either strategy returns
`Some`. -/
theorem c10_valid_build_panic_unreachable (ts : Tileset) (hrect : Rect ts.grid)
    (hinit : Build.is_valid ts (buildContains (∅ : Finset Coordinate)) = true) :
    ∀ d maxb fuel pf,
      Build.from_entrances_to_any_core ts d maxb fuel pf ≠ RunResult.pathPanic ∧
      Build.from_entrances_to_any_core_with_priority ts d maxb fuel pf
        ≠ RunResult.pathPanic := by
  intro d maxb fuel pf
  refine ⟨?_, ?_⟩
  · unfold Build.from_entrances_to_any_core
    exact (rr_loop_valid hrect fuel ∅ 0 1 hinit).2
  · unfold Build.from_entrances_to_any_core_with_priority
    cases hcol : collect_region_paths
        (ShortestPath.from_entrances_to_any_core ts none d) 0 with
    | none =>
      exfalso
      have hall : ∀ x ∈ ShortestPath.from_entrances_to_any_core ts none d,
          x.isSome = true := by
        intro x hx
        unfold ShortestPath.from_entrances_to_any_core at hx
        obtain ⟨region, hr, hx⟩ := List.mem_map.mp hx
        rw [← hx]
        exact valid_from_any_none_isSome hrect hinit hr
      have hsome := collect_region_paths_isSome hall 0
      rw [hcol] at hsome
      cases hsome
    | some entries =>
      dsimp only
      exact (prio_loop_valid hrect fuel ∅ _ hinit).2

theorem c10_valid_build_panic_unreachable_witness :
    Rect pruneDemoTileset.grid ∧
    Build.is_valid pruneDemoTileset (buildContains (∅ : Finset Coordinate)) = true ∧
    ∀ d maxb fuel pf,
      Build.from_entrances_to_any_core pruneDemoTileset d maxb fuel pf
        ≠ RunResult.pathPanic ∧
      Build.from_entrances_to_any_core_with_priority pruneDemoTileset d maxb fuel pf
        ≠ RunResult.pathPanic :=
  ⟨by decide, by decide,
    c10_valid_build_panic_unreachable pruneDemoTileset (by decide) (by decide)⟩


/-- C4, refuted (code bug): in the pruning pass run after committing the
block `(2,1)` on `pruneDemoGrid`, the adjacent redundant block `(2,0)` is
visited, the recomputed per-region shortest paths with `(2,0)` erased
exactly equal the expected ones — so under the claim `(2,0)` would stay
removed — yet the pass returns the build unchanged with `(2,0)` still in
it: the code tentatively removes the committed block `coord` itself
(whose erasure changes the shortest paths, so it is restored) instead of
`adjacent_coord`. -/
theorem c4_prune_removes_wrong_coordinate :
    Build.try_remove_adjacent_to pruneDemoTileset pruneDemoBlocks ⟨2, 1⟩ false 5
      = pruneDemoBlocks ∧
    (⟨2, 0⟩ : Coordinate) ∈ pruneDemoBlocks ∧
    ShortestPath.from_entrances_to_any_core pruneDemoTileset
        (some (buildContains (pruneDemoBlocks.erase ⟨2, 0⟩))) false
      = ShortestPath.from_entrances_to_any_core pruneDemoTileset
        (some (buildContains pruneDemoBlocks)) false ∧
    ShortestPath.from_entrances_to_any_core pruneDemoTileset
        (some (buildContains (pruneDemoBlocks.erase ⟨2, 1⟩))) false
      ≠ ShortestPath.from_entrances_to_any_core pruneDemoTileset
        (some (buildContains pruneDemoBlocks)) false := by decide


theorem mem_from_array_iff {grid : Grid} {c b : Coordinate} :
    b ∈ Adjacent.from_array_coordinate grid c ↔
      (0 < c.y ∧ b = ⟨c.x, c.y - 1⟩) ∨
      (c.x < rowLen grid c.y - 1 ∧ b = ⟨c.x + 1, c.y⟩) ∨
      (c.y < grid.length - 1 ∧ b = ⟨c.x, c.y + 1⟩) ∨
      (0 < c.x ∧ b = ⟨c.x - 1, c.y⟩) := by
  unfold Adjacent.from_array_coordinate
  rw [mem_toList_iff]
  unfold Adjacent.from_grid_coordinate
  dsimp only
  simp only [Bool.and_false, Bool.and_eq_true, decide_eq_true_eq, if_false,
    Option.ite_none_right_eq_some, Option.some.injEq, reduceCtorEq, or_false]
  constructor
  · rintro (⟨hc, rfl⟩ | ⟨hc, rfl⟩ | ⟨hc, rfl⟩ | ⟨hc, rfl⟩) <;> tauto
  · rintro (⟨hc, rfl⟩ | ⟨hc, rfl⟩ | ⟨hc, rfl⟩ | ⟨hc, rfl⟩) <;> tauto

theorem regionAdj_symm {grid : Grid} {t : Tile} {a b : Coordinate}
    (h : regionAdj grid t a b) : regionAdj grid t b a := by
  obtain ⟨ha, hb, hmem⟩ := h
  refine ⟨hb, ha, ?_⟩
  obtain ⟨hay, hax⟩ := get_from_some_inBounds ha
  obtain ⟨ax, ay⟩ := a
  rw [mem_from_array_iff] at hmem ⊢
  dsimp only at hay hax hmem
  rcases hmem with ⟨hc, rfl⟩ | ⟨hc, rfl⟩ | ⟨hc, rfl⟩ | ⟨hc, rfl⟩
  all_goals simp only [Coordinate.mk.injEq]
  · exact Or.inr (Or.inr (Or.inl ⟨by omega, trivial, by omega⟩))
  · exact Or.inr (Or.inr (Or.inr ⟨by omega, by omega, trivial⟩))
  · exact Or.inl ⟨by omega, trivial, by omega⟩
  · exact Or.inr (Or.inl ⟨by omega, by omega, trivial⟩)

theorem regionReach_symm {grid : Grid} {t : Tile} {a b : Coordinate}
    (h : regionReach grid t a b) : regionReach grid t b a := by
  induction h with
  | refl => exact Relation.ReflTransGen.refl
  | tail hxy hyz ih =>
    exact Relation.ReflTransGen.trans
      (Relation.ReflTransGen.single (regionAdj_symm hyz)) ih

theorem from_array_length_le (grid : Grid) (c : Coordinate) :
    (Adjacent.from_array_coordinate grid c).length ≤ 4 := by
  unfold Adjacent.from_array_coordinate Adjacent.toList Adjacent.from_grid_coordinate
  dsimp only
  simp only [Bool.and_false, if_false]
  have hle := List.length_filterMap_le (id : Option Coordinate → Option Coordinate)
    [if decide (0 < c.y) = true then some ⟨c.x, c.y - 1⟩ else none,
     if decide (c.x < rowLen grid c.y - 1) = true then some ⟨c.x + 1, c.y⟩ else none,
     if decide (c.y < grid.length - 1) = true then some ⟨c.x, c.y + 1⟩ else none,
     if decide (0 < c.x) = true then some ⟨c.x - 1, c.y⟩ else none]
  simp only [List.length_cons, List.length_nil] at hle
  simpa using hle

theorem mem_foldl_cons {α : Type} (xs : List α) :
    ∀ (l : List α) (a : α), a ∈ xs.foldl (fun st c => c :: st) l ↔ a ∈ xs ∨ a ∈ l := by
  induction xs with
  | nil =>
    intro l a
    simp
  | cons x xs ih =>
    intro l a
    rw [List.foldl_cons, ih]
    simp only [List.mem_cons]
    tauto

theorem foldl_cons_length {α : Type} (xs : List α) :
    ∀ l : List α, (xs.foldl (fun st c => c :: st) l).length = xs.length + l.length := by
  induction xs with
  | nil =>
    intro l
    simp
  | cons x xs ih =>
    intro l
    rw [List.foldl_cons, ih]
    simp only [List.length_cons]
    omega

theorem sdiff_insert_card {grid : Grid} {visited : Finset Coordinate} {c : Coordinate}
    (hc : c ∈ tileset_coords grid) (hnv : c ∉ visited) :
    ((tileset_coords grid).toFinset \ insert c visited).card + 1
      = ((tileset_coords grid).toFinset \ visited).card := by
  have h1 : (tileset_coords grid).toFinset \ insert c visited
      = ((tileset_coords grid).toFinset \ visited).erase c := by
    ext x
    simp only [Finset.mem_sdiff, Finset.mem_erase, Finset.mem_insert]
    tauto
  have hmem : c ∈ (tileset_coords grid).toFinset \ visited :=
    Finset.mem_sdiff.mpr ⟨List.mem_toFinset.mpr hc, hnv⟩
  have hpos : 0 < ((tileset_coords grid).toFinset \ visited).card :=
    Finset.card_pos.mpr ⟨c, hmem⟩
  rw [h1, Finset.card_erase_of_mem hmem]
  omega


theorem get_region_loop_sound {grid : Grid} {t : Tile} {start : Coordinate} :
    ∀ fuel (stack : List Coordinate) (visited : Finset Coordinate),
      (∀ c ∈ visited, regionReach grid t start c) →
      (∀ c ∈ stack, sameTile grid t c → regionReach grid t start c) →
      ∀ c ∈ get_region_loop grid t fuel stack visited, regionReach grid t start c := by
  intro fuel
  induction fuel with
  | zero =>
    intro stack visited hv hs c hc
    exact hv c hc
  | succ fuel ih =>
    intro stack visited hv hs
    cases stack with
    | nil => exact hv
    | cons coord rest =>
      unfold get_region_loop
      by_cases hvis : coord ∈ visited
      · rw [if_pos hvis]
        exact ih rest visited hv (fun c hc hct => hs c (List.mem_cons_of_mem _ hc) hct)
      · rw [if_neg hvis]
        cases hget : coord.get_from grid with
        | none =>
          dsimp only
          exact hv
        | some tile =>
          dsimp only
          by_cases ht : tile = t
          · subst ht
            rw [if_pos rfl]
            apply ih
            · intro c hc
              rcases Finset.mem_insert.mp hc with rfl | hc
              · exact hs c (List.mem_cons_self _ _) hget
              · exact hv c hc
            · intro c hc hct
              rw [mem_foldl_cons] at hc
              rcases hc with hc | hc
              · exact Relation.ReflTransGen.tail
                  (hs coord (List.mem_cons_self _ _) hget) ⟨hget, hct, hc⟩
              · exact hs c (List.mem_cons_of_mem _ hc) hct
          · rw [if_neg ht]
            exact ih rest visited hv (fun c hc hct => hs c (List.mem_cons_of_mem _ hc) hct)

theorem get_region_loop_complete {grid : Grid} {t : Tile} (hrect : Rect grid) :
    ∀ fuel (stack : List Coordinate) (visited : Finset Coordinate),
      (∀ c ∈ stack, inBounds grid c) →
      (∀ c ∈ visited, sameTile grid t c) →
      (∀ a ∈ visited, ∀ b ∈ Adjacent.from_array_coordinate grid a,
        sameTile grid t b → b ∈ visited ∨ b ∈ stack) →
      stack.length + 4 * ((tileset_coords grid).toFinset \ visited).card ≤ fuel →
      visited ⊆ get_region_loop grid t fuel stack visited ∧
      (∀ c ∈ get_region_loop grid t fuel stack visited, sameTile grid t c) ∧
      (∀ c ∈ stack, sameTile grid t c → c ∈ get_region_loop grid t fuel stack visited) ∧
      (∀ a ∈ get_region_loop grid t fuel stack visited,
        ∀ b ∈ Adjacent.from_array_coordinate grid a, sameTile grid t b →
          b ∈ get_region_loop grid t fuel stack visited) := by
  intro fuel
  induction fuel with
  | zero =>
    intro stack visited hin hvt hcl hfuel
    have hs : stack = [] := List.length_eq_zero.mp (by omega)
    subst hs
    refine ⟨Finset.Subset.refl _, hvt, ?_, ?_⟩
    · intro c hc
      cases hc
    · intro a ha b hb hbt
      rcases hcl a ha b hb hbt with h | h
      · exact h
      · cases h
  | succ fuel ih =>
    intro stack visited hin hvt hcl hfuel
    cases stack with
    | nil =>
      refine ⟨Finset.Subset.refl _, hvt, ?_, ?_⟩
      · intro c hc
        cases hc
      · intro a ha b hb hbt
        rcases hcl a ha b hb hbt with h | h
        · exact h
        · cases h
    | cons coord rest =>
      have hinc : inBounds grid coord := hin coord (List.mem_cons_self _ _)
      have hinr : ∀ c ∈ rest, inBounds grid c :=
        fun c hc => hin c (List.mem_cons_of_mem _ hc)
      unfold get_region_loop
      by_cases hvis : coord ∈ visited
      · rw [if_pos hvis]
        have hcl' : ∀ a ∈ visited, ∀ b ∈ Adjacent.from_array_coordinate grid a,
            sameTile grid t b → b ∈ visited ∨ b ∈ rest := by
          intro a ha b hb hbt
          rcases hcl a ha b hb hbt with h | h
          · exact Or.inl h
          · rcases List.mem_cons.mp h with rfl | h
            · exact Or.inl hvis
            · exact Or.inr h
        have hres := ih rest visited hinr hvt hcl' (by
          simp only [List.length_cons] at hfuel
          omega)
        refine ⟨hres.1, hres.2.1, ?_, hres.2.2.2⟩
        intro c hc hct
        rcases List.mem_cons.mp hc with rfl | hc
        · exact hres.1 hvis
        · exact hres.2.2.1 c hc hct
      · rw [if_neg hvis]
        obtain ⟨tile, hget⟩ := inBounds_get_from_some hinc
        rw [hget]
        dsimp only
        by_cases ht : tile = t
        · rw [if_pos ht]
          rw [ht] at hget
          have hinstack : ∀ c ∈ (Adjacent.from_array_coordinate grid coord).foldl
              (fun st c => c :: st) rest, inBounds grid c := by
            intro c hc
            rw [mem_foldl_cons] at hc
            rcases hc with hc | hc
            · exact from_grid_mem_inBounds hrect hinc hc
            · exact hinr c hc
          have hvt' : ∀ c ∈ insert coord visited, sameTile grid t c := by
            intro c hc
            rcases Finset.mem_insert.mp hc with rfl | hc
            · exact hget
            · exact hvt c hc
          have hcl' : ∀ a ∈ insert coord visited,
              ∀ b ∈ Adjacent.from_array_coordinate grid a, sameTile grid t b →
              b ∈ insert coord visited ∨
                b ∈ (Adjacent.from_array_coordinate grid coord).foldl
                  (fun st c => c :: st) rest := by
            intro a ha b hb hbt
            rcases Finset.mem_insert.mp ha with rfl | ha
            · exact Or.inr ((mem_foldl_cons _ _ _).mpr (Or.inl hb))
            · rcases hcl a ha b hb hbt with h | h
              · exact Or.inl (Finset.mem_insert_of_mem h)
              · rcases List.mem_cons.mp h with rfl | h
                · exact Or.inl (Finset.mem_insert_self _ _)
                · exact Or.inr ((mem_foldl_cons _ _ _).mpr (Or.inr h))
          have hfuel' : ((Adjacent.from_array_coordinate grid coord).foldl
                (fun st c => c :: st) rest).length +
              4 * ((tileset_coords grid).toFinset \ insert coord visited).card ≤ fuel := by
            have hlen := foldl_cons_length (Adjacent.from_array_coordinate grid coord) rest
            have hfour := from_array_length_le grid coord
            have hcard := sdiff_insert_card (mem_tileset_coords.mpr hinc) hvis
            simp only [List.length_cons] at hfuel
            omega
          have hres := ih _ (insert coord visited) hinstack hvt' hcl' hfuel'
          refine ⟨?_, hres.2.1, ?_, hres.2.2.2⟩
          · exact fun c hc => hres.1 (Finset.mem_insert_of_mem hc)
          · intro c hc hct
            rcases List.mem_cons.mp hc with rfl | hc
            · exact hres.1 (Finset.mem_insert_self _ _)
            · exact hres.2.2.1 c
                ((mem_foldl_cons _ _ _).mpr (Or.inr hc)) hct
        · rw [if_neg ht]
          have hcl' : ∀ a ∈ visited, ∀ b ∈ Adjacent.from_array_coordinate grid a,
              sameTile grid t b → b ∈ visited ∨ b ∈ rest := by
            intro a ha b hb hbt
            rcases hcl a ha b hb hbt with h | h
            · exact Or.inl h
            · rcases List.mem_cons.mp h with rfl | h
              · exact absurd hbt (by
                  unfold sameTile
                  rw [hget]
                  simp only [Option.some_inj]
                  exact fun hh => ht hh)
              · exact Or.inr h
          have hres := ih rest visited hinr hvt hcl' (by
            simp only [List.length_cons] at hfuel
            omega)
          refine ⟨hres.1, hres.2.1, ?_, hres.2.2.2⟩
          intro c hc hct
          rcases List.mem_cons.mp hc with rfl | hc
          · exact absurd hct (by
              unfold sameTile
              rw [hget]
              simp only [Option.some_inj]
              exact fun hh => ht hh)
          · exact hres.2.2.1 c hc hct


theorem get_region_spec {grid : Grid} {t : Tile} {start : Coordinate}
    (hrect : Rect grid) (hstart : sameTile grid t start) :
    ∀ c, c ∈ get_region_loop grid t (REGION_FUEL grid) [start] ∅ ↔
      regionReach grid t start c := by
  have hin : ∀ c ∈ [start], inBounds grid c := by
    intro c hc
    rw [List.mem_singleton] at hc
    subst hc
    exact get_from_some_inBounds hstart
  have hfuel : ([start] : List Coordinate).length +
      4 * ((tileset_coords grid).toFinset \ (∅ : Finset Coordinate)).card
        ≤ REGION_FUEL grid := by
    have hcard : ((tileset_coords grid).toFinset).card ≤ gridCells grid :=
      List.toFinset_card_le _
    unfold REGION_FUEL
    simp only [List.length_singleton, Finset.sdiff_empty]
    omega
  have hcomp := get_region_loop_complete (t := t) hrect (REGION_FUEL grid) [start] ∅ hin
    (fun c hc => absurd hc (Finset.not_mem_empty c))
    (fun a ha => absurd ha (Finset.not_mem_empty a)) hfuel
  intro c
  constructor
  · intro hc
    refine get_region_loop_sound (REGION_FUEL grid) [start] ∅ ?_ ?_ c hc
    · intro x hx
      exact absurd hx (Finset.not_mem_empty x)
    · intro x hx hxt
      rw [List.mem_singleton] at hx
      subst hx
      exact Relation.ReflTransGen.refl
  · intro hr
    induction hr with
    | refl => exact hcomp.2.2.1 start (List.mem_cons_self _ _) hstart
    | tail hab hbc ih => exact hcomp.2.2.2 _ ih _ hbc.2.2 hbc.2.1

theorem separate_regions_error_iff {grid : Grid} {t : Tile} {e : TilesetError} :
    separate_regions grid t = Except.error e ↔
      t.is_region = false ∧ e = TilesetError.NotRegion t := by
  unfold separate_regions
  by_cases h : t.is_region = true
  · rw [if_pos h]
    constructor
    · intro he
      cases he
    · rintro ⟨h1, -⟩
      rw [h] at h1
      cases h1
  · rw [if_neg h]
    constructor
    · intro he
      injection he with he
      refine ⟨?_, he.symm⟩
      revert h
      cases t.is_region <;> simp
    · rintro ⟨-, rfl⟩
      rfl

theorem sep_foldl_spec {grid : Grid} {t : Tile} (hrect : Rect grid) :
    ∀ (coords : List Coordinate) (acc : List (Finset Coordinate)),
      (∀ b ∈ acc, ∃ s, sameTile grid t s ∧ ∀ x, x ∈ b ↔ regionReach grid t s x) →
      List.Pairwise (fun b1 b2 => ∀ x, x ∈ b1 → x ∉ b2) acc →
      (∀ b ∈ acc, b ∈ coords.foldl
        (fun buckets coord =>
          if coord.get_from grid = some t ∧ ∀ s ∈ buckets, coord ∉ s then
            buckets ++ [get_region_loop grid t (REGION_FUEL grid) [coord] ∅]
          else buckets) acc) ∧
      (∀ b ∈ coords.foldl
        (fun buckets coord =>
          if coord.get_from grid = some t ∧ ∀ s ∈ buckets, coord ∉ s then
            buckets ++ [get_region_loop grid t (REGION_FUEL grid) [coord] ∅]
          else buckets) acc,
        ∃ s, sameTile grid t s ∧ ∀ x, x ∈ b ↔ regionReach grid t s x) ∧
      List.Pairwise (fun b1 b2 => ∀ x, x ∈ b1 → x ∉ b2) (coords.foldl
        (fun buckets coord =>
          if coord.get_from grid = some t ∧ ∀ s ∈ buckets, coord ∉ s then
            buckets ++ [get_region_loop grid t (REGION_FUEL grid) [coord] ∅]
          else buckets) acc) ∧
      (∀ c ∈ coords, sameTile grid t c → ∃ b ∈ coords.foldl
        (fun buckets coord =>
          if coord.get_from grid = some t ∧ ∀ s ∈ buckets, coord ∉ s then
            buckets ++ [get_region_loop grid t (REGION_FUEL grid) [coord] ∅]
          else buckets) acc, c ∈ b) := by
  intro coords
  induction coords with
  | nil =>
    intro acc ha hp
    refine ⟨fun b hb => hb, ha, hp, ?_⟩
    intro c hc
    cases hc
  | cons coord rest ih =>
    intro acc ha hp
    simp only [List.foldl_cons]
    by_cases hcond : coord.get_from grid = some t ∧ ∀ s ∈ acc, coord ∉ s
    · rw [if_pos hcond]
      have hspec : ∀ x, x ∈ get_region_loop grid t (REGION_FUEL grid) [coord] ∅ ↔
          regionReach grid t coord x :=
        get_region_spec hrect hcond.1
      have ha' : ∀ b ∈ acc ++ [get_region_loop grid t (REGION_FUEL grid) [coord] ∅],
          ∃ s, sameTile grid t s ∧ ∀ x, x ∈ b ↔ regionReach grid t s x := by
        intro b hb
        rcases List.mem_append.mp hb with hb | hb
        · exact ha b hb
        · rw [List.mem_singleton] at hb
          subst hb
          exact ⟨coord, hcond.1, hspec⟩
      have hp' : List.Pairwise (fun b1 b2 => ∀ x, x ∈ b1 → x ∉ b2)
          (acc ++ [get_region_loop grid t (REGION_FUEL grid) [coord] ∅]) := by
        rw [List.pairwise_append]
        refine ⟨hp, List.pairwise_singleton _ _, ?_⟩
        intro b1 hb1 b2 hb2 x hx1
        rw [List.mem_singleton] at hb2
        subst hb2
        intro hx2
        obtain ⟨s, hst, hiff⟩ := ha b1 hb1
        have hsc : regionReach grid t s coord :=
          Relation.ReflTransGen.trans ((hiff x).mp hx1)
            (regionReach_symm ((hspec x).mp hx2))
        exact hcond.2 b1 hb1 ((hiff coord).mpr hsc)
      have hres := ih (acc ++ [get_region_loop grid t (REGION_FUEL grid) [coord] ∅])
        ha' hp'
      refine ⟨?_, hres.2.1, hres.2.2.1, ?_⟩
      · intro b hb
        exact hres.1 b (List.mem_append_left _ hb)
      · intro c hc hct
        rcases List.mem_cons.mp hc with rfl | hc
        · refine ⟨get_region_loop grid t (REGION_FUEL grid) [c] ∅,
            hres.1 _ (List.mem_append_right _ (List.mem_cons_self _ _)), ?_⟩
          exact (hspec c).mpr Relation.ReflTransGen.refl
        · exact hres.2.2.2 c hc hct
    · rw [if_neg hcond]
      have hres := ih acc ha hp
      refine ⟨hres.1, hres.2.1, hres.2.2.1, ?_⟩
      intro c hc hct
      rcases List.mem_cons.mp hc with rfl | hc
      · have hnall : ¬ ∀ s ∈ acc, c ∉ s := fun hall => hcond ⟨hct, hall⟩
        push_neg at hnall
        obtain ⟨b, hb, hcb⟩ := hnall
        exact ⟨b, hres.1 b hb, hcb⟩
      · exact hres.2.2.2 c hc hct

/-- C9: `Tileset::separate_regions` fails exactly on a non-region tile
kind, with `Error::NotRegion` carrying that kind; on a region kind it
returns the list of maximal 4-connected same-kind regions: every bucket is
exactly the set of cells of the kind connected to some seed cell through
orthogonal same-kind steps, every cell of the kind lies in a bucket, and
the buckets do not overlap. -/
theorem c9_separate_regions (grid : Grid) (t : Tile) (hrect : Rect grid) :
    (∀ e, separate_regions grid t = Except.error e ↔
      t.is_region = false ∧ e = TilesetError.NotRegion t) ∧
    (∀ buckets, separate_regions grid t = Except.ok buckets →
      (∀ b ∈ buckets, ∃ s, sameTile grid t s ∧
        ∀ c, c ∈ b ↔ regionReach grid t s c) ∧
      (∀ c, sameTile grid t c → ∃ b ∈ buckets, c ∈ b) ∧
      List.Pairwise (fun b1 b2 => ∀ c, c ∈ b1 → c ∉ b2) buckets) := by
  constructor
  · intro e
    exact separate_regions_error_iff
  · intro buckets hb
    unfold separate_regions at hb
    by_cases h : t.is_region = true
    · rw [if_pos h] at hb
      injection hb with hb
      subst hb
      have hres := sep_foldl_spec (t := t) hrect (tileset_coords grid) []
        (by intro b hb; cases hb) List.Pairwise.nil
      refine ⟨hres.2.1, ?_, hres.2.2.1⟩
      intro c hc
      exact hres.2.2.2 c (mem_tileset_coords.mpr (get_from_some_inBounds hc)) hc
    · rw [if_neg h] at hb
      cases hb

theorem c9_separate_regions_witness :
    Rect pruneDemoGrid ∧
    ((∀ e, separate_regions pruneDemoGrid Tile.Core = Except.error e ↔
      Tile.Core.is_region = false ∧ e = TilesetError.NotRegion Tile.Core) ∧
    (∀ buckets, separate_regions pruneDemoGrid Tile.Core = Except.ok buckets →
      (∀ b ∈ buckets, ∃ s, sameTile pruneDemoGrid Tile.Core s ∧
        ∀ c, c ∈ b ↔ regionReach pruneDemoGrid Tile.Core s c) ∧
      (∀ c, sameTile pruneDemoGrid Tile.Core c → ∃ b ∈ buckets, c ∈ b) ∧
      List.Pairwise (fun b1 b2 => ∀ c, c ∈ b1 → c ∉ b2) buckets)) :=
  ⟨by decide, c9_separate_regions pruneDemoGrid Tile.Core (by decide)⟩

end Sanctum
